import Mathlib

/-!
Verification of the retrieval/ranking and content-chunking core of the
Collectiv wiki repository.

The TypeScript sources are shallowly embedded over `Str := List Char`.
JavaScript built-ins used by the code (`String.prototype.trim`,
`String.prototype.split(/\s+/)`, `String.prototype.toLowerCase`,
`String.prototype.includes`, the specific regexes appearing in the source,
insertion-ordered objects/`Map`s and the stable `Array.prototype.sort`) are
modelled by executable Lean functions defined below; each model is documented
at its definition.  Scores computed with JavaScript floating point division
are modelled as rationals (`ℚ`); all inputs under consideration are short
ASCII texts for which the float arithmetic of the source is exact.
-/

/-- Strings are modelled as lists of characters. -/
abbrev Str := List Char

/-- Sentence-terminator characters used by the regexes `[.!?]` of the source. -/
def isTerm (c : Char) : Bool := c = '.' || c = '!' || c = '?'

/-- Word characters, JavaScript regex `\w` and the word-boundary class of `\b`. -/
def isWordChar (c : Char) : Bool :=
  ('a' ≤ c && c ≤ 'z') || ('A' ≤ c && c ≤ 'Z') || ('0' ≤ c && c ≤ '9') || c = '_'

/-- Model of `String.prototype.toLowerCase` (exact on ASCII input). -/
def toLowerStr (s : Str) : Str := s.map Char.toLower

/-- Helper for `jsTrim`: drop the trailing whitespace run (structurally). -/
def dropTrailWS : Str → Str
  | [] => []
  | c :: rest =>
    let r := dropTrailWS rest
    if r = [] ∧ c.isWhitespace then [] else c :: r

/-- Model of `String.prototype.trim`: remove leading and trailing whitespace. -/
def jsTrim (s : Str) : Str := dropTrailWS (s.dropWhile Char.isWhitespace)

/-- Scanner for `jsSplitWS`: `acc` is the piece being built (reversed), the
boolean records whether the scan is inside a whitespace separator run. -/
def jsSplitWSAux : Str → Bool → Str → List Str
  | acc, _, [] => [acc.reverse]
  | acc, sep, c :: rest =>
    if sep then
      if c.isWhitespace then jsSplitWSAux acc true rest
      else jsSplitWSAux [c] false rest
    else if c.isWhitespace then
      acc.reverse :: jsSplitWSAux [] true rest
    else
      jsSplitWSAux (c :: acc) false rest

/-- Model of `String.prototype.split(/\s+/)`: split at maximal whitespace runs.
As in JavaScript, a leading (resp. trailing) whitespace run produces a leading
(resp. trailing) empty piece, and the empty string yields `[""]`. -/
def jsSplitWS (l : Str) : List Str := jsSplitWSAux [] false l

/-- Number of maximal non-whitespace runs, tracking whether the scan is inside
a run.  `countRuns` below is the natural word count of a string. -/
def countRunsAux : Bool → Str → Nat
  | _, [] => 0
  | inRun, c :: rest =>
    if c.isWhitespace then countRunsAux false rest
    else (if inRun then 0 else 1) + countRunsAux true rest

/-- Word count of a string: the number of maximal non-whitespace runs. -/
def countRuns (l : Str) : Nat := countRunsAux false l

/-- Model of `String.prototype.includes` on lists of characters. -/
def strIncludes (pat : Str) : Str → Bool
  | [] => pat.isEmpty
  | c :: rest => pat.isPrefixOf (c :: rest) || strIncludes pat rest

/-! ### `estimateTokens` (`lib/rag.ts`)

```ts
const charCount = text.length;
const approximateTokens = Math.ceil(charCount / 4);
const minTokens = Math.ceil(charCount / 5);
const maxTokens = Math.ceil(charCount / 3);
return { approximate: approximateTokens, range: { min: minTokens, max: maxTokens } };
```
`Math.ceil(n / d)` on a natural `n` is the ceiling division `(n + d - 1) / d`. -/

structure TokenRange where
  min : Nat
  max : Nat
deriving DecidableEq

structure TokenEstimate where
  approximate : Nat
  range : TokenRange
deriving DecidableEq

def estimateTokens (text : Str) : TokenEstimate :=
  let charCount := text.length
  { approximate := (charCount + 3) / 4
    range := { min := (charCount + 4) / 5, max := (charCount + 2) / 3 } }

/-! ### `chunkContent` (`lib/rag.ts`) -/

structure ChunkMetadata where
  title : Str
  tokens : Nat
  startChar : Nat
  endChar : Nat
deriving DecidableEq

structure ChunkedContent where
  id : Str
  articleId : Str
  chunkIndex : Nat
  content : Str
  metadata : ChunkMetadata
deriving DecidableEq

/-- Whether the head character exists and is a sentence terminator. -/
def headIsTerm : Str → Bool
  | [] => false
  | p :: _ => isTerm p

/-- Model of `content.split(/(?<=[.!?])\s+/)`: cut after a sentence terminator
that is followed by whitespace; the whole whitespace run is the separator and
is removed.  `acc` holds the current piece reversed (so its head is the
previously read character, which is what the lookbehind inspects); the boolean
records whether the scan is inside a separator run being skipped. -/
def splitSentencesAux : Str → Bool → Str → List Str
  | acc, _, [] => [acc.reverse]
  | acc, sep, c :: rest =>
    if sep then
      if c.isWhitespace then splitSentencesAux acc true rest
      else splitSentencesAux [c] false rest
    else if c.isWhitespace && headIsTerm acc then
      acc.reverse :: splitSentencesAux [] true rest
    else
      splitSentencesAux (c :: acc) false rest

/-- The sentence list used by `chunkContent`. -/
def splitSentences (content : Str) : List Str := splitSentencesAux [] false content

/-- Chunk id `` `${articleId}-chunk-${chunkIndex}` ``. -/
def mkChunkId (articleId : Str) (idx : Nat) : Str :=
  articleId ++ ("-chunk-").data ++ (Nat.repr idx).data

/-- One pushed chunk record of `chunkContent`. -/
def mkChunk (articleId title cur : Str) (start idx : Nat) : ChunkedContent :=
  { id := mkChunkId articleId idx
    articleId := articleId
    chunkIndex := idx
    content := cur
    metadata :=
      { title := title
        tokens := (estimateTokens cur).approximate
        startChar := start
        endChar := start + cur.length } }

/-- The accumulation step `currentChunk + (currentChunk ? ' ' : '') + sentence`
of `chunkContent`. -/
def glueStep (cur s : Str) : Str := cur ++ (if cur ≠ [] then [' '] else []) ++ s

/-- The sentence loop of `chunkContent`.  State: current buffer `cur`, its
absolute offset `start`, and the running `idx`.  `Math.max(0, len - overlap)`
is natural subtraction. -/
def chunkLoop (chunkSize overlapSize : Nat) (articleId title : Str) :
    List Str → Str → Nat → Nat → List ChunkedContent
  | [], cur, start, idx =>
    if jsTrim cur ≠ [] then [mkChunk articleId title cur start idx] else []
  | s :: rest, cur, start, idx =>
    let pot := glueStep cur s
    if pot.length > chunkSize ∧ cur ≠ [] then
      let k := cur.length - overlapSize
      mkChunk articleId title cur start idx ::
        chunkLoop chunkSize overlapSize articleId title rest
          (cur.drop k ++ ' ' :: s) (start + k) (idx + 1)
    else
      chunkLoop chunkSize overlapSize articleId title rest pot start idx

/-- `chunkContent(content, chunkSize, overlapSize, articleId, title)`. -/
def chunkContent (content : Str) (chunkSize overlapSize : Nat)
    (articleId title : Str) : List ChunkedContent :=
  chunkLoop chunkSize overlapSize articleId title (splitSentences content) [] 0 0

/-! ### C7: chunk indices and offset monotonicity -/

/-- Relation between consecutive chunks: starts are non-decreasing, the next
start lies inside the previous window, ends are non-decreasing. -/
def chunkRel (a b : ChunkedContent) : Prop :=
  a.metadata.startChar ≤ b.metadata.startChar ∧
  b.metadata.startChar ≤ a.metadata.endChar ∧
  a.metadata.endChar ≤ b.metadata.endChar

/-! ### C3: character-window coverage of `chunkContent` -/

/-- Re-running the accumulation step of the chunk loop over a sentence list:
`joinGlue cur ss` is the buffer obtained from `cur` if no flush ever fires. -/
def joinGlue (cur : Str) (ss : List Str) : Str := ss.foldl glueStep cur

/-- Sentences each prefixed by the single joining space. -/
def preJoin (ss : List Str) : Str := (ss.map (fun s => ' ' :: s)).flatten

/-- The `startChar..endChar` window of a chunk inside the original content. -/
def window (content : Str) (c : ChunkedContent) : Str :=
  (content.drop c.metadata.startChar).take (c.metadata.endChar - c.metadata.startChar)

/-- Concatenate chunk windows, dropping from each window the characters that
were already contributed by the previous window (overlap de-duplication). -/
def reconAux (content : Str) : Nat → List ChunkedContent → Str
  | _, [] => []
  | e, c :: rest =>
    (window content c).drop (e - c.metadata.startChar) ++
      reconAux content c.metadata.endChar rest

/-- Overlap-de-duplicated concatenation of all chunk windows. -/
def recon (content : Str) (cs : List ChunkedContent) : Str := reconAux content 0 cs

/-- Whether the last character exists and is not whitespace. -/
def endsSolid (l : Str) : Bool :=
  match l.getLast? with
  | some c => !c.isWhitespace
  | none => false

/-- The last sentence still to be processed (or, once the list is exhausted,
the buffer itself) is non-empty and ends in a non-whitespace character. -/
def solidTail (cur : Str) (ss : List Str) : Bool :=
  match ss.getLast? with
  | some s => endsSolid s
  | none => endsSolid cur

/-! ### C1: `extractAtomicAnswers` (`lib/schemas/jsonld.ts`) -/

/-- Whether the first character exists and is not whitespace. -/
def headSolid : Str → Bool
  | [] => false
  | c :: _ => !c.isWhitespace

/-- Number of maximal whitespace runs, tracking whether the scan is inside
one; dual to `countRunsAux`. -/
def wsRunsAux : Bool → Str → Nat
  | _, [] => 0
  | inWS, c :: rest =>
    if c.isWhitespace then (if inWS then 0 else 1) + wsRunsAux true rest
    else wsRunsAux false rest

/-- The word counter `sentence.trim().split(/\s+/).length` of the source. -/
def wordsOf (s : Str) : Nat := (jsSplitWS (jsTrim s)).length

/-! ### `extractAtomicAnswers` (`lib/schemas/jsonld.ts`)

```ts
const sentences = content.match(/[^.!?]+[.!?]+/g) || [];
let currentAnswer = ''; let wordCount = 0;
for (const sentence of sentences) {
  const words = sentence.trim().split(/\s+/).length;
  if (wordCount + words > 60 && currentAnswer.trim()) { ...push... ; currentAnswer = ''; wordCount = 0; }
  currentAnswer += ' ' + sentence.trim();
  wordCount += words;
}
if (currentAnswer.trim() && 40 <= wordCount && wordCount <= 60) { ...push... }
```
The `relatedTopics` field (heuristic entity extraction) is not modelled; no
claim refers to it. -/

structure AtomicAnswer where
  id : Str
  heading : Str
  answer : Str
  confidence : ℚ
deriving DecidableEq

/-- Scanner for the regex `[^.!?]+[.!?]+` with the `g` flag: `run` holds the
current `[^.!?]+` part (reversed), `terms` the current `[.!?]+` part
(reversed); a non-empty `terms` means the terminator part has started, and a
non-terminator then completes the match.  A trailing run without terminators
produces no match. -/
def matchSentencesAux : Str → Str → Str → List Str
  | run, terms, [] => if terms = [] then [] else [run.reverse ++ terms.reverse]
  | run, terms, c :: rest =>
    if terms = [] then
      if isTerm c then
        if run = [] then matchSentencesAux [] [] rest
        else matchSentencesAux run [c] rest
      else matchSentencesAux (c :: run) [] rest
    else
      if isTerm c then matchSentencesAux run (c :: terms) rest
      else (run.reverse ++ terms.reverse) :: matchSentencesAux [c] [] rest

/-- The sentence list `content.match(/[^.!?]+[.!?]+/g) || []`. -/
def matchSentences (content : Str) : List Str := matchSentencesAux [] [] content

/-- Scanner for `heading.toLowerCase().replace(/\s+/g, '-')`: each maximal
whitespace run becomes a single dash. -/
def replaceWSRunsAux : Bool → Str → Str
  | _, [] => []
  | inSep, c :: rest =>
    if c.isWhitespace then
      (if inSep then [] else ['-']) ++ replaceWSRunsAux true rest
    else c :: replaceWSRunsAux false rest

/-- Answer id `` `${heading.toLowerCase().replace(/\s+/g, '-')}-${answers.length}` ``. -/
def mkAnswerId (heading : Str) (n : Nat) : Str :=
  replaceWSRunsAux false (toLowerStr heading) ++ '-' :: (Nat.repr n).data

/-- One pushed `AtomicAnswer` (confidence is the constant `0.95`). -/
def mkAnswer (heading : Str) (n : Nat) (cur : Str) : AtomicAnswer :=
  { id := mkAnswerId heading n
    heading := heading
    answer := jsTrim cur
    confidence := 95 / 100 }

/-- The sentence loop of `extractAtomicAnswers`: state is the accumulated
answers, the running buffer `cur` and the running word count `wc`. -/
def atomicLoop (heading : Str) : List Str → List AtomicAnswer → Str → Nat → List AtomicAnswer
  | [], answers, cur, wc =>
    if jsTrim cur ≠ [] ∧ 40 ≤ wc ∧ wc ≤ 60 then
      answers ++ [mkAnswer heading answers.length cur]
    else answers
  | s :: rest, answers, cur, wc =>
    let words := wordsOf s
    if 60 < wc + words ∧ jsTrim cur ≠ [] then
      atomicLoop heading rest (answers ++ [mkAnswer heading answers.length cur])
        (' ' :: jsTrim s) words
    else
      atomicLoop heading rest answers (cur ++ ' ' :: jsTrim s) (wc + words)

/-- `extractAtomicAnswers(content, heading)`. -/
def extractAtomicAnswers (content heading : Str) : List AtomicAnswer :=
  atomicLoop heading (matchSentences content) [] [] 0

/-! ### Stable sorting

`Array.prototype.sort` is stable (ECMA-262); for a consistent comparator the
result is the unique stable ordering, realised here as insertion sort with
`le a b` meaning `comparator(a, b) <= 0` (`a` may stay before `b`). -/

def insertBy {α : Type} (le : α → α → Bool) (x : α) : List α → List α
  | [] => [x]
  | y :: ys => if le x y then x :: y :: ys else y :: insertBy le x ys

def stableSortBy {α : Type} (le : α → α → Bool) (l : List α) : List α :=
  l.foldr (insertBy le) []

/-! ### `calculateSimilarityScore` and `rankChunksForQuery` (`lib/rag.ts`)

```ts
const queryTerms = query.toLowerCase().split(/\s+/);
const contentLower = content.toLowerCase();
let matchCount = 0;
for (const term of queryTerms) {
  if (contentLower.includes(term)) {
    const regex = new RegExp(`\\b${term}\\b`, 'g');
    matchCount += (content.match(regex) || []).length;
  }
}
return matchCount / Math.max(queryTerms.length, 1);
```
The term is interpolated into the regex unescaped, so `new RegExp` throws a
`SyntaxError` for terms such as `"("`; a thrown exception is modelled as
`none`.  RegExp construction is modelled conservatively: a term is treated as
safe when it contains no regex metacharacter, in which case the JavaScript
pattern `\b<term>\b` is a valid regex whose `g`-matches are the
word-boundary-delimited occurrences counted below (for the empty term the
pattern `\b\b` matches once at every word boundary).  Only the behaviour on
metacharacter-free terms and on the concrete throwing input `"("` is relied
upon by the theorems. -/

def isRegexMeta (c : Char) : Bool :=
  c = '\\' || c = '^' || c = '$' || c = '.' || c = '|' || c = '?' || c = '*' ||
  c = '+' || c = '(' || c = ')' || c = '[' || c = ']' ||
  c = Char.ofNat 123 || c = Char.ofNat 125

def regexTermSafe (t : Str) : Bool := t.all (fun c => !(isRegexMeta c))

/-- Whether the character at index `i` exists and is a word character. -/
def wordAt (l : Str) (i : Nat) : Bool :=
  match l.drop i with
  | c :: _ => isWordChar c
  | [] => false

/-- JavaScript `\b`: word-ness changes between positions `i - 1` and `i`
(out-of-range positions count as non-word). -/
def boundaryAt (l : Str) (i : Nat) : Bool :=
  (if i = 0 then false else wordAt l (i - 1)) != wordAt l i

/-- Matches of `/\b\b/g`: one empty match at every word boundary. -/
def countBoundaryPositions (l : Str) : Nat :=
  ((List.range (l.length + 1)).filter (fun i => boundaryAt l i)).length

/-- Left-to-right non-overlapping scan for `/\b<term>\b/g` with a non-empty
literal term: on a match at `i` continue at `i + |term|`, otherwise at
`i + 1`.  The scan advances at least one position per step, so a fuel of
`content.length + 1` is never exhausted. -/
def countBMAux (t content : Str) : Nat → Nat → Nat
  | 0, _ => 0
  | fuel + 1, i =>
    if i + t.length ≤ content.length ∧ (content.drop i).take t.length = t ∧
        boundaryAt content i = true ∧ boundaryAt content (i + t.length) = true then
      1 + countBMAux t content fuel (i + t.length)
    else if i < content.length then countBMAux t content fuel (i + 1)
    else 0

/-- `(content.match(/\b<term>\b/g) || []).length` for a metacharacter-free term. -/
def countBMatches (t content : Str) : Nat :=
  if t = [] then countBoundaryPositions content
  else countBMAux t content (content.length + 1) 0

/-- `calculateSimilarityScore(query, content)`; `none` models the
`SyntaxError` thrown when a term occurring in the content produces an invalid
regex. -/
def calculateSimilarityScore (query content : Str) : Option ℚ :=
  let queryTerms := jsSplitWS (toLowerStr query)
  let contentLower := toLowerStr content
  (queryTerms.foldlM (fun acc term =>
      if strIncludes term contentLower then
        if regexTermSafe term then some (acc + countBMatches term content) else none
      else some acc) 0).map
    (fun matchCount => mkRat (matchCount : Int) (max queryTerms.length 1))

/-- `rankChunksForQuery(chunks, query, topK)`: annotate with scores, stable
sort by descending score, take `topK`, strip the score; a throw while scoring
any chunk (modelled `none`) propagates. -/
def rankChunksForQuery (chunks : List ChunkedContent) (query : Str) (topK : Nat) :
    Option (List ChunkedContent) :=
  (chunks.mapM (fun c =>
      (calculateSimilarityScore query c.content).map (fun sc => (c, sc)))).map
    (fun scored =>
      ((stableSortBy (fun a b => decide (b.2 ≤ a.2)) scored).take topK).map Prod.fst)

/-- Example chunk records for the ranking witness. -/
def exChunkA : ChunkedContent :=
  { id := ("c0").data, articleId := ("a").data, chunkIndex := 0,
    content := ("apple apple").data,
    metadata := { title := ("T").data, tokens := 3, startChar := 0, endChar := 11 } }

def exChunkB : ChunkedContent :=
  { id := ("c1").data, articleId := ("a").data, chunkIndex := 1,
    content := ("banana").data,
    metadata := { title := ("T").data, tokens := 2, startChar := 11, endChar := 17 } }

/-! ### `extractKeywords` and `calculateSimilarity` (`lib/schemas/jsonld.ts`)

```ts
const words = content.toLowerCase().replace(/[^\w\s]/g, '').split(/\s+/)
  .filter((word) => word.length > 4);
const frequency = {}; words.forEach((word) => frequency[word] = (frequency[word] || 0) + 1);
return Object.entries(frequency).sort(([, a], [, b]) => b - a).slice(0, maxKeywords).map(([word]) => word);
```
The frequency object is modelled as an insertion-ordered association list
(JavaScript objects order integer-like keys first; no theorem below depends
on entry order).  `new Set(...)` iteration is modelled by first-occurrence
de-duplication. -/

/-- Frequency bump: increment the entry in place or append a new one. -/
def bumpFreq (m : List (Str × Nat)) (w : Str) : List (Str × Nat) :=
  if m.any (fun p => decide (p.1 = w)) then
    m.map (fun p => if p.1 = w then (p.1, p.2 + 1) else p)
  else m ++ [(w, 1)]

/-- `extractKeywords(content, maxKeywords)`. -/
def extractKeywords (content : Str) (maxKeywords : Nat) : List Str :=
  let words := (jsSplitWS ((toLowerStr content).filter
      (fun c => isWordChar c || c.isWhitespace))).filter (fun w => decide (4 < w.length))
  let freq := words.foldl bumpFreq []
  ((stableSortBy (fun a b : Str × Nat => decide (b.2 ≤ a.2)) freq).take maxKeywords).map
    Prod.fst

/-- First-occurrence de-duplication (JavaScript `Set` insertion order). -/
def dedupFirstAux (seen : List Str) : List Str → List Str
  | [] => []
  | x :: rest =>
    if decide (x ∈ seen) then dedupFirstAux seen rest
    else x :: dedupFirstAux (x :: seen) rest

def dedupFirst (l : List Str) : List Str := dedupFirstAux [] l

/-- `calculateSimilarity(content1, content2)`: Jaccard over the two keyword
sets; `union === 0 ? 0 : intersection / union` with exact rational division
(`mkRat`). -/
def calculateSimilarity (content1 content2 : Str) : ℚ :=
  let s1 := dedupFirst (extractKeywords content1 10)
  let s2 := dedupFirst (extractKeywords content2 10)
  let inter := (s1.filter (fun w => decide (w ∈ s2))).length
  let union := s1.length + s2.length - inter
  if union = 0 then 0 else mkRat (inter : Int) union

/-- The Jaccard formula of the specification:
`|A∩B| / (|A|+|B|-|A∩B|)`, zero when the union is empty. -/
def jaccardSpec (A B : Finset Str) : ℚ :=
  if (A ∪ B).card = 0 then 0
  else ((A ∩ B).card : ℚ) / ((A.card : ℚ) + (B.card : ℚ) - ((A ∩ B).card : ℚ))

/-! ### Cross-reference graph (`lib/schemas/jsonld.ts`)

Articles, `findRelatedArticles`, `extractInternalReferences`,
`buildKnowledgeGraph`.  The `description` passthrough field of
`findRelatedArticles` (absent from the graph-builder's article records) is
not modelled; no claim refers to it.  A JavaScript `Map` is an
insertion-ordered association list: `set` updates an existing key in place or
appends. -/

structure ArticleRec where
  id : Str
  title : Str
  slug : Str
  content : Str
deriving DecidableEq

structure RelatedArticle where
  id : Str
  title : Str
  slug : Str
  relevanceScore : ℚ
deriving DecidableEq

inductive ConnType where
  | references
  | referencedBy
  | related
deriving DecidableEq

structure KGConn where
  nodeId : Str
  ctype : ConnType
deriving DecidableEq

structure KGNode where
  id : Str
  title : Str
  slug : Str
  connections : List KGConn
deriving DecidableEq

/-- A JavaScript `Map<string, KnowledgeGraphNode>`. -/
abbrev KGraph := List (Str × KGNode)

def mapGet (g : KGraph) (k : Str) : Option KGNode :=
  (g.find? (fun p => decide (p.1 = k))).map Prod.snd

def mapSet (g : KGraph) (k : Str) (v : KGNode) : KGraph :=
  if g.any (fun p => decide (p.1 = k)) then
    g.map (fun p => if p.1 = k then (k, v) else p)
  else g ++ [(k, v)]

/-- `findRelatedArticles(currentArticle, allArticles, limit)`: similarity-score
every other article, keep scores above `0.1`, stable sort descending, take
`limit`. -/
def findRelatedArticles (cur : ArticleRec) (allArticles : List ArticleRec)
    (limit : Nat) : List RelatedArticle :=
  ((stableSortBy (fun x y : ArticleRec × ℚ => decide (y.2 ≤ x.2))
      (((allArticles.filter (fun a => decide (a.id ≠ cur.id))).map
          (fun a => (a, calculateSimilarity cur.content a.content))).filter
        (fun p => decide (mkRat 1 10 < p.2)))).take limit).map
    (fun p => { id := p.1.id, title := p.1.title, slug := p.1.slug,
                relevanceScore := p.2 })

/-- Scanner for `/\[\[([^\]]+)\]\]/g`: at `[[`, capture the maximal non-`]`
run; a match needs a non-empty run closed by `]]` and scanning resumes after
it, otherwise scanning resumes at the second `[`.  Every step consumes at
least one character, so a fuel of `content.length + 1` is never exhausted. -/
def extractRefsScan : Nat → Str → List Str
  | 0, _ => []
  | _, [] => []
  | fuel + 1, '[' :: '[' :: rest =>
    let run := rest.takeWhile (fun c => decide (c ≠ ']'))
    match rest.drop run.length with
    | ']' :: ']' :: rest2 =>
      if run ≠ [] then run :: extractRefsScan fuel rest2
      else extractRefsScan fuel ('[' :: rest)
    | _ => extractRefsScan fuel ('[' :: rest)
  | fuel + 1, _ :: rest => extractRefsScan fuel rest

/-- `extractInternalReferences(content)`: matched names, lowercased and
trimmed, first-occurrence de-duplicated. -/
def extractInternalReferences (content : Str) : List Str :=
  dedupFirst ((extractRefsScan (content.length + 1) content).map
    (fun r => jsTrim (toLowerStr r)))

/-- One iteration of the connection-building loop of `buildKnowledgeGraph`
for one article: push `related` edges, then resolve `[[Title]]` references by
case-insensitive title match, skipping unresolved ones and node ids already
connected. -/
def knowledgeStep (articles : List ArticleRec) (maxConn : Nat) (g : KGraph)
    (article : ArticleRec) : KGraph :=
  match mapGet g article.id with
  | none => g
  | some node =>
    let related := findRelatedArticles article articles maxConn
    let conns1 := node.connections ++
      related.map (fun r => { nodeId := r.id, ctype := ConnType.related })
    let conns2 := (extractInternalReferences article.content).foldl
      (fun cs ref =>
        match articles.find? (fun a => decide (toLowerStr a.title = ref)) with
        | some rart =>
          if cs.any (fun c => decide (c.nodeId = rart.id)) then cs
          else cs ++ [{ nodeId := rart.id, ctype := ConnType.references }]
        | none => cs) conns1
    mapSet g article.id { node with connections := conns2 }

/-- `buildKnowledgeGraph(articles, maxConnectionsPerArticle)`. -/
def buildKnowledgeGraph (articles : List ArticleRec) (maxConn : Nat) : KGraph :=
  articles.foldl (knowledgeStep articles maxConn)
    (articles.foldl (fun g a =>
      mapSet g a.id { id := a.id, title := a.title, slug := a.slug, connections := [] }) [])

/-- The no-self-`related`-edge invariant on a graph. -/
def NoRelSelf (g : KGraph) : Prop :=
  ∀ p ∈ g, ∀ c ∈ p.2.connections, c.ctype = ConnType.related → c.nodeId ≠ p.1

/-- C4 counterexample article: its content references its own title. -/
def cexArticle : ArticleRec :=
  { id := ("a").data, title := ("Alpha").data, slug := ("alpha").data,
    content := ("See [[Alpha]].").data }

/-- Witness articles with identical keyword-rich content, producing mutual
`related` edges. -/
def witArtA : ArticleRec :=
  { id := ("a").data, title := ("A").data, slug := ("a").data,
    content := ("apple apple apple.").data }

def witArtB : ArticleRec :=
  { id := ("b").data, title := ("B").data, slug := ("b").data,
    content := ("apple apple apple.").data }

/-- The node built for `witArtA`. -/
def kgWitNodeA : KGNode :=
  { id := ("a").data, title := ("A").data, slug := ("a").data,
    connections := [{ nodeId := ("b").data, ctype := ConnType.related }] }

/-! ### `getRecommendations` (`lib/schemas/jsonld.ts`)

```ts
const recommendations = new Map(); const queue = [currentArticleId];
const visited = new Set([currentArticleId]);
while (queue.length > 0 && recommendations.size < limit) {
  const nodeId = queue.shift(); const node = graph.get(nodeId);
  if (!node) continue;
  node.connections.forEach((connection) => {
    if (!visited.has(connection.nodeId)) {
      visited.add(connection.nodeId);
      const connectedNode = graph.get(connection.nodeId);
      if (connectedNode && !recommendations.has(connection.nodeId)) {
        recommendations.set(connection.nodeId, connectedNode);
      }
      if (queue.length < limit * 2) { queue.push(connection.nodeId); }
    }
  });
}
return Array.from(recommendations.values()).slice(0, limit);
```
The loop terminates: each iteration dequeues one element, and an element is
enqueued only right after being newly added to `visited`, whose unvisited
complement inside the finite set of connection targets then strictly
shrinks; `2 * unvisited + queue.length` strictly decreases.  That measure is
passed as explicit fuel (which is therefore never exhausted:
`recLoopF_fuel_stable` below). -/

structure RecState where
  queue : List Str
  visited : List Str
  recs : List (Str × KGNode)

/-- The body of the `forEach` over one connection. -/
def visitStep (graph : KGraph) (limit : Nat) (st : RecState) (c : KGConn) : RecState :=
  if decide (c.nodeId ∈ st.visited) then st
  else
    { queue := if st.queue.length < limit * 2 then st.queue ++ [c.nodeId] else st.queue
      visited := c.nodeId :: st.visited
      recs :=
        match mapGet graph c.nodeId with
        | some cn =>
          if st.recs.any (fun p => decide (p.1 = c.nodeId)) then st.recs
          else st.recs ++ [(c.nodeId, cn)]
        | none => st.recs }

def visitConns (graph : KGraph) (limit : Nat) (conns : List KGConn) (st : RecState) :
    RecState :=
  conns.foldl (visitStep graph limit) st

/-- All connection-target ids appearing anywhere in the graph. -/
def allConnIds (graph : KGraph) : List Str :=
  (graph.map (fun p => p.2.connections.map (fun c => c.nodeId))).flatten

def unvisitedCount (graph : KGraph) (visited : List Str) : Nat :=
  (((allConnIds graph).dedup).filter (fun x => decide (x ∉ visited))).length

/-- Termination measure of the BFS loop. -/
def recMeasure (graph : KGraph) (st : RecState) : Nat :=
  2 * unvisitedCount graph st.visited + st.queue.length

/-- The BFS loop with explicit fuel; one unit of fuel per dequeue. -/
def recLoopF (graph : KGraph) (limit : Nat) : Nat → RecState → List (Str × KGNode)
  | 0, st => st.recs
  | fuel + 1, st =>
    match st.queue with
    | [] => st.recs
    | q :: qs =>
      if limit ≤ st.recs.length then st.recs
      else
        recLoopF graph limit fuel
          (match mapGet graph q with
           | none => { queue := qs, visited := st.visited, recs := st.recs }
           | some node =>
             visitConns graph limit node.connections
               { queue := qs, visited := st.visited, recs := st.recs })

/-- `getRecommendations(currentArticleId, graph, limit)`. -/
def getRecommendations (currentArticleId : Str) (graph : KGraph) (limit : Nat) :
    List KGNode :=
  match mapGet graph currentArticleId with
  | none => []
  | some _ =>
    ((recLoopF graph limit
        (recMeasure graph
          { queue := [currentArticleId], visited := [currentArticleId], recs := [] } + 1)
        { queue := [currentArticleId], visited := [currentArticleId], recs := [] }).map
      Prod.snd).take limit

/-- One BFS edge: `y` is a connection target of the node stored at `x`. -/
def stepRel (graph : KGraph) (x y : Str) : Prop :=
  ∃ nx, mapGet graph x = some nx ∧ y ∈ nx.connections.map (fun c => c.nodeId)

/-- Reachability along connection edges of either type. -/
def Reach (graph : KGraph) (a b : Str) : Prop :=
  Relation.ReflTransGen (stepRel graph) a b

/-- BFS loop invariant: the start id is visited, queued ids are reachable,
and recommendation entries are reachable non-start ids paired with their
graph nodes. -/
def RecInv (graph : KGraph) (a : Str) (st : RecState) : Prop :=
  a ∈ st.visited ∧ (∀ k ∈ st.queue, Reach graph a k) ∧
  (∀ p ∈ st.recs, p.1 ≠ a ∧ mapGet graph p.1 = some p.2 ∧ Reach graph a p.1)

/-- Witness graph for the recommendation theorem: `a → b`, `b` isolated. -/
def recNodeA : KGNode :=
  { id := ("a").data, title := ("A").data, slug := ("a").data,
    connections := [{ nodeId := ("b").data, ctype := ConnType.related }] }

def recNodeB : KGNode :=
  { id := ("b").data, title := ("B").data, slug := ("b").data, connections := [] }

def recGraphEx : KGraph := [(("a").data, recNodeA), (("b").data, recNodeB)]

/-! ### Ceiling-division facts for `estimateTokens` -/

lemma ceil_nat_div (n d z : Nat) (hd : 0 < d) (h1 : n ≤ d * z) (h2 : d * z < n + d) :
    ((z : Nat) : ℤ) = ⌈(n : ℚ) / d⌉ := by
  have hdQ : (0:ℚ) < d := by exact_mod_cast hd
  symm
  rw [Int.ceil_eq_iff]
  constructor
  · rw [lt_div_iff hdQ]
    have hc : (d : ℚ) * z < n + d := by exact_mod_cast h2
    push_cast
    nlinarith
  · rw [div_le_iff hdQ]
    have hc : (n : ℚ) ≤ d * z := by exact_mod_cast h1
    push_cast
    nlinarith

lemma ceil_div_four (n : Nat) : (((n + 3) / 4 : Nat) : ℤ) = ⌈(n : ℚ) / 4⌉ := by
  have := ceil_nat_div n 4 ((n + 3) / 4) (by norm_num) (by omega) (by omega)
  simpa using this

lemma ceil_div_five (n : Nat) : (((n + 4) / 5 : Nat) : ℤ) = ⌈(n : ℚ) / 5⌉ := by
  have := ceil_nat_div n 5 ((n + 4) / 5) (by norm_num) (by omega) (by omega)
  simpa using this

lemma ceil_div_three (n : Nat) : (((n + 2) / 3 : Nat) : ℤ) = ⌈(n : ℚ) / 3⌉ := by
  have := ceil_nat_div n 3 ((n + 2) / 3) (by norm_num) (by omega) (by omega)
  simpa using this

/-- C9: `estimateTokens` computes `approximate = ceil(len/4)`,
`range.min = ceil(len/5)`, `range.max = ceil(len/3)`; consequently
`range.min ≤ approximate ≤ range.max` for every text, and the empty string
yields the all-zero estimate. -/
theorem estimate_tokens_spec (text : Str) :
    (((estimateTokens text).approximate : ℤ) = ⌈(text.length : ℚ) / 4⌉) ∧
    (((estimateTokens text).range.min : ℤ) = ⌈(text.length : ℚ) / 5⌉) ∧
    (((estimateTokens text).range.max : ℤ) = ⌈(text.length : ℚ) / 3⌉) ∧
    (estimateTokens text).range.min ≤ (estimateTokens text).approximate ∧
    (estimateTokens text).approximate ≤ (estimateTokens text).range.max ∧
    estimateTokens ([] : Str) = ⟨0, 0, 0⟩ := by
  refine ⟨ceil_div_four _, ceil_div_five _, ceil_div_three _, ?_, ?_, rfl⟩
  · show (text.length + 4) / 5 ≤ (text.length + 3) / 4
    omega
  · show (text.length + 3) / 4 ≤ (text.length + 2) / 3
    omega

/-- C10 helper: the chunk loop visits each sentence once and emits at most one
chunk per sentence plus the final flush. -/
lemma chunkLoop_length_le (csz osz : Nat) (aid t : Str) :
    ∀ (ss : List Str) (cur : Str) (start idx : Nat),
      (chunkLoop csz osz aid t ss cur start idx).length ≤ ss.length + 1 := by
  intro ss
  induction ss with
  | nil =>
    intro cur start idx
    rw [chunkLoop]
    split <;> simp
  | cons s rest ih =>
    intro cur start idx
    rw [chunkLoop]
    dsimp only
    split
    · simp only [List.length_cons]
      exact Nat.succ_le_succ (ih _ _ _)
    · exact (ih _ _ _).trans (by simp)

/-- C10: `chunkContent` always returns a finite chunk list, bounded by the
number of sentences plus one, for every content string and every parameter
configuration, including the degenerate one `overlapSize ≥ chunkSize`: the
loop iterates once over the finite sentence list. -/
theorem chunk_content_finite (content : Str) (chunkSize overlapSize : Nat)
    (articleId title : Str) :
    (chunkContent content chunkSize overlapSize articleId title).length ≤
      (splitSentences content).length + 1 :=
  chunkLoop_length_le chunkSize overlapSize articleId title _ _ _ _

/-- Main invariant of the chunk loop: chunk indices are consecutive from
`idx`, all emitted windows lie at or after `start` and end at or after
`start + cur.length`, consecutive chunks satisfy `chunkRel`, and the first
emitted chunk starts exactly at `start`. -/
lemma chunkLoop_spec (csz osz : Nat) (aid t : Str) :
    ∀ (ss : List Str) (cur : Str) (start idx : Nat),
      ((chunkLoop csz osz aid t ss cur start idx).map (·.chunkIndex) =
        List.range' idx (chunkLoop csz osz aid t ss cur start idx).length) ∧
      (∀ c ∈ chunkLoop csz osz aid t ss cur start idx,
         start ≤ c.metadata.startChar ∧ start + cur.length ≤ c.metadata.endChar) ∧
      List.Chain' chunkRel (chunkLoop csz osz aid t ss cur start idx) ∧
      (∀ c, (chunkLoop csz osz aid t ss cur start idx).head? = some c →
         c.metadata.startChar = start) := by
  intro ss
  induction ss with
  | nil =>
    intro cur start idx
    rw [chunkLoop]
    split
    · refine ⟨rfl, ?_, List.chain'_singleton _, ?_⟩
      · intro c hc
        simp only [List.mem_singleton] at hc
        subst hc
        exact ⟨le_refl _, le_refl _⟩
      · intro c hc
        simp only [List.head?_cons, Option.some.injEq] at hc
        subst hc
        rfl
    · exact ⟨rfl, by simp, List.chain'_nil, by simp⟩
  | cons s rest ih =>
    intro cur start idx
    rw [chunkLoop]
    dsimp only
    split
    · next hcond =>
      obtain ⟨ih1, ih2, ih3, ih4⟩ :=
        ih (cur.drop (cur.length - osz) ++ ' ' :: s) (start + (cur.length - osz)) (idx + 1)
      have hk : cur.length - osz ≤ cur.length := Nat.sub_le _ _
      have hlen : (cur.drop (cur.length - osz) ++ ' ' :: s).length =
          (cur.length - (cur.length - osz)) + (s.length + 1) := by
        simp [List.length_drop]
      have hend : ∀ c ∈ chunkLoop csz osz aid t rest
          (cur.drop (cur.length - osz) ++ ' ' :: s) (start + (cur.length - osz)) (idx + 1),
          start + cur.length ≤ c.metadata.endChar := by
        intro c hc
        have := (ih2 c hc).2
        rw [hlen] at this
        omega
      refine ⟨?_, ?_, ?_, ?_⟩
      · simp only [List.map_cons, List.length_cons, mkChunk]
        rw [List.range'_succ]
        rw [ih1]
      · intro c hc
        rcases List.mem_cons.mp hc with h | h
        · subst h
          exact ⟨le_refl _, le_refl _⟩
        · have h1 := (ih2 c h).1
          have h2 := hend c h
          exact ⟨by omega, h2⟩
      · refine List.Chain'.cons' ih3 ?_
        intro y hy
        have hmem := List.mem_of_mem_head? hy
        have hys := ih4 y hy
        have hye := hend y hmem
        refine ⟨?_, ?_, ?_⟩
        · simp only [mkChunk]
          omega
        · simp only [mkChunk]
          omega
        · simpa [mkChunk] using hye
      · intro c hc
        simp only [List.head?_cons, Option.some.injEq] at hc
        subst hc
        rfl
    · next hcond =>
      obtain ⟨ih1, ih2, ih3, ih4⟩ := ih (glueStep cur s) start idx
      have hlen : cur.length ≤ (glueStep cur s).length := by
        simp only [glueStep, List.length_append]
        omega
      refine ⟨ih1, ?_, ih3, ih4⟩
      intro c hc
      have h1 := (ih2 c hc).1
      have h2 := (ih2 c hc).2
      exact ⟨h1, by omega⟩

/-- C7: for every content string and every chunking configuration, the
`chunkIndex` values of `chunkContent` are exactly `0..n-1` in order, and both
`startChar` and `endChar` are monotonically non-decreasing across consecutive
chunks. -/
theorem chunk_indices_monotone (content : Str) (chunkSize overlapSize : Nat)
    (articleId title : Str) :
    ((chunkContent content chunkSize overlapSize articleId title).map (·.chunkIndex) =
      List.range (chunkContent content chunkSize overlapSize articleId title).length) ∧
    List.Chain' (fun a b => a.metadata.startChar ≤ b.metadata.startChar)
      (chunkContent content chunkSize overlapSize articleId title) ∧
    List.Chain' (fun a b => a.metadata.endChar ≤ b.metadata.endChar)
      (chunkContent content chunkSize overlapSize articleId title) := by
  obtain ⟨h1, _, h3, _⟩ :=
    chunkLoop_spec chunkSize overlapSize articleId title (splitSentences content) [] 0 0
  refine ⟨?_, ?_, ?_⟩
  · rw [List.range_eq_range']
    exact h1
  · exact h3.imp (fun a b hab => hab.1)
  · exact h3.imp (fun a b hab => hab.2.2)

lemma joinGlue_eq_append (ss : List Str) :
    ∀ cur : Str, cur ≠ [] → joinGlue cur ss = cur ++ preJoin ss := by
  induction ss with
  | nil => intro cur _; simp [joinGlue, preJoin]
  | cons s rest ih =>
    intro cur hcur
    have hg : glueStep cur s = cur ++ ' ' :: s := by
      simp [glueStep, if_pos hcur]
    have hne : glueStep cur s ≠ [] := by
      rw [hg]
      simp [hcur]
    calc joinGlue cur (s :: rest) = joinGlue (glueStep cur s) rest := rfl
      _ = glueStep cur s ++ preJoin rest := ih _ hne
      _ = (cur ++ ' ' :: s) ++ preJoin rest := by rw [hg]
      _ = cur ++ preJoin (s :: rest) := by simp [preJoin]

lemma endsSolid_ne_nil {l : Str} (h : endsSolid l = true) : l ≠ [] := by
  intro he
  subst he
  simp [endsSolid] at h

lemma endsSolid_append {x s : Str} (hs : s ≠ []) : endsSolid (x ++ s) = endsSolid s := by
  unfold endsSolid
  rw [List.getLast?_append_of_ne_nil _ hs]

lemma dropTrailWS_eq_nil {l : Str} (h : dropTrailWS l = []) :
    ∀ c ∈ l, c.isWhitespace = true := by
  induction l with
  | nil => simp
  | cons c rest ih =>
    intro x hx
    rw [show dropTrailWS (c :: rest) =
        (if dropTrailWS rest = [] ∧ c.isWhitespace then []
         else c :: dropTrailWS rest) from rfl] at h
    split at h
    · next hcase =>
      rcases List.mem_cons.mp hx with rfl | hxr
      · exact hcase.2
      · exact ih hcase.1 x hxr
    · exact absurd h (by simp)

lemma jsTrim_eq_nil {l : Str} (h : jsTrim l = []) : ∀ c ∈ l, c.isWhitespace = true := by
  intro c hc
  have hsplit := List.takeWhile_append_dropWhile (p := Char.isWhitespace) (l := l)
  rw [← hsplit] at hc
  rcases List.mem_append.mp hc with h1 | h2
  · exact List.mem_takeWhile_imp h1
  · exact dropTrailWS_eq_nil h c h2

lemma jsTrim_ne_nil_of_solid {l : Str} (h : endsSolid l = true) : jsTrim l ≠ [] := by
  intro hnil
  unfold endsSolid at h
  obtain ⟨c, hc⟩ : ∃ c, l.getLast? = some c := by
    cases hl : l.getLast? with
    | none => rw [hl] at h; simp at h
    | some c => exact ⟨c, rfl⟩
  rw [hc] at h
  have hmem := List.mem_of_mem_getLast? hc
  have := jsTrim_eq_nil hnil c hmem
  simp [this] at h

/-- Window invariant of the chunk loop: if the content from offset `start`
onwards is exactly what re-gluing the buffer with the remaining sentences
yields, then every emitted chunk's `content` is the `startChar..endChar`
window of the original content, with `endChar = startChar + length` within
bounds. -/
lemma chunkLoop_window (content : Str) (csz osz : Nat) (aid t : Str) :
    ∀ (ss : List Str) (cur : Str) (start idx : Nat),
      content.drop start = joinGlue cur ss →
      ∀ c ∈ chunkLoop csz osz aid t ss cur start idx,
        c.content = (content.drop c.metadata.startChar).take c.content.length ∧
        c.metadata.endChar = c.metadata.startChar + c.content.length ∧
        c.metadata.endChar ≤ content.length := by
  intro ss
  induction ss with
  | nil =>
    intro cur start idx hinv c hc
    rw [chunkLoop] at hc
    split at hc
    · next htrim =>
      simp only [List.mem_singleton] at hc
      subst hc
      have hcur : content.drop start = cur := by simpa [joinGlue] using hinv
      have hne : cur ≠ [] := by
        intro he
        exact htrim (by simp [he, jsTrim, dropTrailWS])
      have hstart : start < content.length := by
        by_contra hcon
        push_neg at hcon
        have : content.drop start = [] := List.drop_eq_nil_of_le hcon
        rw [hcur] at this
        exact hne this
      have hlen : cur.length = content.length - start := by
        rw [← hcur, List.length_drop]
      refine ⟨?_, rfl, by simp only [mkChunk]; omega⟩
      simp only [mkChunk]
      rw [hcur, List.take_length]
    · simp at hc
  | cons s rest ih =>
    intro cur start idx hinv c hc
    rw [chunkLoop] at hc
    split at hc
    · next hcond =>
      have hcur : cur ≠ [] := hcond.2
      have hk : cur.length - osz ≤ cur.length := Nat.sub_le _ _
      have hglue : joinGlue cur (s :: rest) = (cur ++ ' ' :: s) ++ preJoin rest := by
        have hg : glueStep cur s = cur ++ ' ' :: s := by simp [glueStep, if_pos hcur]
        have hne : glueStep cur s ≠ [] := by rw [hg]; simp [hcur]
        calc joinGlue cur (s :: rest) = joinGlue (glueStep cur s) rest := rfl
          _ = glueStep cur s ++ preJoin rest := joinGlue_eq_append rest _ hne
          _ = (cur ++ ' ' :: s) ++ preJoin rest := by rw [hg]
      have hexp : content.drop start = cur ++ (' ' :: s ++ preJoin rest) := by
        rw [hinv, hglue]
        simp
      rcases List.mem_cons.mp hc with rfl | hcr
      · -- the flushed chunk
        have hstart : start < content.length := by
          by_contra hcon
          push_neg at hcon
          have : content.drop start = [] := List.drop_eq_nil_of_le hcon
          rw [hexp] at this
          simp [hcur] at this
        have hlen : cur.length ≤ content.length - start := by
          have := congrArg List.length hexp
          rw [List.length_drop] at this
          simp only [List.length_append] at this
          omega
        refine ⟨?_, rfl, by simp only [mkChunk]; omega⟩
        simp only [mkChunk]
        rw [hexp]
        rw [List.take_left]
      · -- chunks from the recursive call
        have hinv' : content.drop (start + (cur.length - osz)) =
            joinGlue (cur.drop (cur.length - osz) ++ ' ' :: s) rest := by
          have hne' : cur.drop (cur.length - osz) ++ ' ' :: s ≠ [] := by simp
          rw [joinGlue_eq_append rest _ hne']
          have h1 : content.drop (start + (cur.length - osz)) =
              (content.drop start).drop (cur.length - osz) := by
            rw [List.drop_drop]
          rw [h1, hexp, List.drop_append_of_le_length hk]
          simp
        exact ih _ _ _ hinv' c hcr
    · next hcond =>
      have hinv' : content.drop start = joinGlue (glueStep cur s) rest := hinv
      exact ih _ _ _ hinv' c hc

/-- The chunk loop always flushes a final chunk ending exactly at
`content.length` when the tail of the pending text ends in a non-whitespace
character. -/
lemma chunkLoop_last (content : Str) (csz osz : Nat) (aid t : Str) :
    ∀ (ss : List Str) (cur : Str) (start idx : Nat),
      content.drop start = joinGlue cur ss →
      solidTail cur ss = true →
      ∃ c, (chunkLoop csz osz aid t ss cur start idx).getLast? = some c ∧
        c.metadata.endChar = content.length := by
  intro ss
  induction ss with
  | nil =>
    intro cur start idx hinv hsolid
    have hcur : content.drop start = cur := by simpa [joinGlue] using hinv
    have hends : endsSolid cur = true := by simpa [solidTail] using hsolid
    have hne : cur ≠ [] := endsSolid_ne_nil hends
    have htrim : jsTrim cur ≠ [] := jsTrim_ne_nil_of_solid hends
    have hstart : start < content.length := by
      by_contra hcon
      push_neg at hcon
      have : content.drop start = [] := List.drop_eq_nil_of_le hcon
      rw [hcur] at this
      exact hne this
    have hlen : cur.length = content.length - start := by
      rw [← hcur, List.length_drop]
    rw [chunkLoop, if_pos htrim]
    refine ⟨mkChunk aid t cur start idx, rfl, ?_⟩
    simp only [mkChunk]
    omega
  | cons s rest ih =>
    intro cur start idx hinv hsolid
    rw [chunkLoop]
    dsimp only
    have hsolid' : ∀ cur' : Str, (∃ x : Str, cur' = x ++ s) → solidTail cur' rest = true := by
      intro cur' ⟨x, hx⟩
      cases hrest : rest.getLast? with
      | some s2 =>
        unfold solidTail
        rw [hrest]
        unfold solidTail at hsolid
        rw [List.getLast?_cons, hrest] at hsolid
        simpa using hsolid
      | none =>
        have hrnil : rest = [] := by
          cases rest with
          | nil => rfl
          | cons a b => simp [List.getLast?_cons] at hrest
        subst hrnil
        unfold solidTail at hsolid ⊢
        simp only [List.getLast?_nil]
        rw [List.getLast?_cons] at hsolid
        simp only [List.getLast?_nil, Option.getD] at hsolid
        have hssolid : endsSolid s = true := by simpa using hsolid
        have hsne : s ≠ [] := endsSolid_ne_nil hssolid
        rw [hx, endsSolid_append hsne]
        exact hssolid
    split
    · next hcond =>
      have hcur : cur ≠ [] := hcond.2
      have hk : cur.length - osz ≤ cur.length := Nat.sub_le _ _
      have hglue : joinGlue cur (s :: rest) = (cur ++ ' ' :: s) ++ preJoin rest := by
        have hg : glueStep cur s = cur ++ ' ' :: s := by simp [glueStep, if_pos hcur]
        have hne : glueStep cur s ≠ [] := by rw [hg]; simp [hcur]
        calc joinGlue cur (s :: rest) = joinGlue (glueStep cur s) rest := rfl
          _ = glueStep cur s ++ preJoin rest := joinGlue_eq_append rest _ hne
          _ = (cur ++ ' ' :: s) ++ preJoin rest := by rw [hg]
      have hexp : content.drop start = cur ++ (' ' :: s ++ preJoin rest) := by
        rw [hinv, hglue]; simp
      have hinv' : content.drop (start + (cur.length - osz)) =
          joinGlue (cur.drop (cur.length - osz) ++ ' ' :: s) rest := by
        have hne' : cur.drop (cur.length - osz) ++ ' ' :: s ≠ [] := by simp
        rw [joinGlue_eq_append rest _ hne']
        have h1 : content.drop (start + (cur.length - osz)) =
            (content.drop start).drop (cur.length - osz) := by
          rw [List.drop_drop]
        rw [h1, hexp, List.drop_append_of_le_length hk]
        simp
      have hsol' : solidTail (cur.drop (cur.length - osz) ++ ' ' :: s) rest = true := by
        apply hsolid'
        exact ⟨cur.drop (cur.length - osz) ++ [' '], by simp⟩
      obtain ⟨c, hc1, hc2⟩ := ih _ _ _ hinv' hsol'
      refine ⟨c, ?_, hc2⟩
      have hne2 : chunkLoop csz osz aid t rest
          (cur.drop (cur.length - osz) ++ ' ' :: s) (start + (cur.length - osz)) (idx + 1) ≠ [] := by
        intro hnil
        rw [hnil] at hc1
        simp at hc1
      rw [show (mkChunk aid t cur start idx ::
          chunkLoop csz osz aid t rest (cur.drop (cur.length - osz) ++ ' ' :: s)
            (start + (cur.length - osz)) (idx + 1)) =
          [mkChunk aid t cur start idx] ++
          chunkLoop csz osz aid t rest (cur.drop (cur.length - osz) ++ ' ' :: s)
            (start + (cur.length - osz)) (idx + 1) from rfl]
      rw [List.getLast?_append_of_ne_nil _ hne2]
      exact hc1
    · next hcond =>
      have hsol' : solidTail (glueStep cur s) rest = true := by
        apply hsolid'
        exact ⟨cur ++ (if cur ≠ [] then [' '] else []), by simp [glueStep]⟩
      exact ih _ _ _ hinv hsol'

/-- De-duplicated window concatenation covers `content` from `e` to the last
chunk's `endChar`, given the inter-chunk window relations. -/
lemma reconAux_covers (content : Str) :
    ∀ (cs : List ChunkedContent) (e lastE : Nat),
      List.Chain' chunkRel cs →
      (cs = [] → lastE = e) →
      (∀ c, cs.getLast? = some c → lastE = c.metadata.endChar) →
      (∀ c, cs.head? = some c →
        c.metadata.startChar ≤ e ∧ e ≤ c.metadata.endChar) →
      reconAux content e cs = (content.drop e).take (lastE - e) ∧ e ≤ lastE := by
  intro cs
  induction cs with
  | nil =>
    intro e lastE _ hnil _ _
    rw [hnil rfl]
    simp [reconAux]
  | cons c rest ih =>
    intro e lastE hchain hnil hlast hhead
    obtain ⟨hse, hee⟩ := hhead c rfl
    have hlast' : ∀ c2, rest.getLast? = some c2 → lastE = c2.metadata.endChar := by
      intro c2 hc2
      apply hlast
      have hrne : rest ≠ [] := by
        intro hr
        rw [hr] at hc2
        simp at hc2
      rw [show c :: rest = [c] ++ rest from rfl]
      rw [List.getLast?_append_of_ne_nil _ hrne]
      exact hc2
    have hnil' : rest = [] → lastE = c.metadata.endChar := by
      intro hr
      apply hlast
      rw [hr]
      rfl
    have hhead' : ∀ c2, rest.head? = some c2 →
        c2.metadata.startChar ≤ c.metadata.endChar ∧
        c.metadata.endChar ≤ c2.metadata.endChar := by
      intro c2 hc2
      cases rest with
      | nil => simp at hc2
      | cons d ds =>
        simp only [List.head?_cons, Option.some.injEq] at hc2
        subst hc2
        have hrel : chunkRel c d := (List.chain'_cons.mp hchain).1
        exact ⟨hrel.2.1, hrel.2.2⟩
    obtain ⟨ih1, ih2⟩ := ih c.metadata.endChar lastE
      (hchain.tail) (by intro hr; exact (hnil' hr).symm ▸ rfl) hlast' hhead'
    constructor
    · rw [reconAux]
      have hw : (window content c).drop (e - c.metadata.startChar) =
          (content.drop e).take (c.metadata.endChar - e) := by
        unfold window
        rw [List.drop_take]
        rw [List.drop_drop]
        have h1 : c.metadata.startChar + (e - c.metadata.startChar) = e := by omega
        have h2 : c.metadata.endChar - c.metadata.startChar - (e - c.metadata.startChar) =
            c.metadata.endChar - e := by omega
        rw [h1, h2]
      rw [hw, ih1]
      have hdd : (content.drop e).drop (c.metadata.endChar - e) =
          content.drop c.metadata.endChar := by
        rw [List.drop_drop]
        congr 1
        omega
      rw [← hdd, ← List.take_add]
      congr 1
      omega
    · omega

/-- C3 (amended): when the sentence decomposition of `content` re-glues to
`content` itself (all sentence separators are single spaces) and the trailing
sentence ends in a non-whitespace character, the chunks of `chunkContent`
are non-empty, each chunk's `content` is exactly its `startChar..endChar`
window of the original content, the overlap-de-duplicated concatenation of
the windows reconstructs the content, and the last chunk ends at
`content.length`. -/
theorem chunk_windows_reconstruct (content : Str) (chunkSize overlapSize : Nat)
    (articleId title : Str)
    (hjoin : joinGlue [] (splitSentences content) = content)
    (hsolid : solidTail [] (splitSentences content) = true)
    (hover : overlapSize < chunkSize) :
    chunkContent content chunkSize overlapSize articleId title ≠ [] ∧
    (∀ c ∈ chunkContent content chunkSize overlapSize articleId title,
      c.content = window content c) ∧
    recon content (chunkContent content chunkSize overlapSize articleId title) = content ∧
    (∃ c, (chunkContent content chunkSize overlapSize articleId title).getLast? = some c ∧
      c.metadata.endChar = content.length) := by
  have hinv : content.drop 0 = joinGlue [] (splitSentences content) := by
    rw [hjoin]
    simp
  have hwin := chunkLoop_window content chunkSize overlapSize articleId title
    (splitSentences content) [] 0 0 hinv
  have hlast := chunkLoop_last content chunkSize overlapSize articleId title
    (splitSentences content) [] 0 0 hinv hsolid
  obtain ⟨c0, hc0, hc0e⟩ := hlast
  obtain ⟨_, _, hchain, hhead⟩ :=
    chunkLoop_spec chunkSize overlapSize articleId title (splitSentences content) [] 0 0
  have hne : chunkContent content chunkSize overlapSize articleId title ≠ [] := by
    intro hnil
    rw [show chunkContent content chunkSize overlapSize articleId title =
      chunkLoop chunkSize overlapSize articleId title (splitSentences content) [] 0 0 from rfl]
      at hnil
    rw [hnil] at hc0
    simp at hc0
  have hwin' : ∀ c ∈ chunkContent content chunkSize overlapSize articleId title,
      c.content = window content c := by
    intro c hc
    obtain ⟨h1, h2, _⟩ := hwin c hc
    unfold window
    rw [h1]
    congr 1
    omega
  refine ⟨hne, hwin', ?_, c0, hc0, hc0e⟩
  have hcov := reconAux_covers content
    (chunkContent content chunkSize overlapSize articleId title) 0 content.length
    hchain (fun h => absurd h hne) ?_ ?_
  · rw [recon, hcov.1]
    simp
  · intro c hc
    unfold chunkContent at hc
    rw [hc0] at hc
    injection hc with hc
    subst hc
    exact hc0e.symm
  · intro c hc
    have := hhead c hc
    constructor
    · omega
    · exact Nat.zero_le _

/-- C3 counterexample: with two spaces between sentences (`"A.  B."`), the
split removes the separator whitespace and the loop re-glues with a single
space, so the chunk windows do not reconstruct the content (the only chunk's
window is `"A.  B"`, its content `"A. B."`). -/
theorem chunk_windows_gap :
    ¬ (recon (("A.  B.").data)
        (chunkContent (("A.  B.").data) 1024 128 (("a1").data) (("T").data)) =
      ("A.  B.").data) := by decide

/-- Witness for `chunk_windows_reconstruct`: a three-sentence, single-spaced
content chunked into three overlapping chunks. -/
theorem chunk_windows_reconstruct_witness :
    recon (("One two three. Four five six. Seven eight.").data)
        (chunkContent (("One two three. Four five six. Seven eight.").data)
          20 5 (("a1").data) (("T").data)) =
      ("One two three. Four five six. Seven eight.").data ∧
    (∃ c, (chunkContent (("One two three. Four five six. Seven eight.").data)
          20 5 (("a1").data) (("T").data)).getLast? = some c ∧
      c.metadata.endChar = ("One two three. Four five six. Seven eight.").data.length) := by
  have h := chunk_windows_reconstruct (("One two three. Four five six. Seven eight.").data)
    20 5 (("a1").data) (("T").data) (by decide) (by decide) (by decide)
  exact ⟨h.2.2.1, h.2.2.2⟩

lemma jsSplitWSAux_length (l : Str) :
    ∀ (acc : Str) (sep : Bool),
      (jsSplitWSAux acc sep l).length = 1 + wsRunsAux sep l := by
  induction l with
  | nil => intro acc sep; simp [jsSplitWSAux, wsRunsAux]
  | cons c rest ih =>
    intro acc sep
    rw [jsSplitWSAux, wsRunsAux]
    by_cases hw : c.isWhitespace
    · cases sep <;> simp [hw, ih] <;> omega
    · cases sep <;> simp [hw, ih]

lemma countRuns_dual (l : Str) (h : endsSolid l = true) :
    countRunsAux true l = wsRunsAux false l ∧
    countRunsAux false l = 1 + wsRunsAux true l := by
  induction l with
  | nil => simp [endsSolid] at h
  | cons c rest ih =>
    cases hr : rest with
    | nil =>
      subst hr
      have hc : c.isWhitespace = false := by
        unfold endsSolid at h
        simp only [List.getLast?_singleton] at h
        simpa using h
      constructor
      · simp [countRunsAux, wsRunsAux, hc]
      · simp [countRunsAux, wsRunsAux, hc]
    | cons d ds =>
      have hrest : endsSolid rest = true := by
        unfold endsSolid at h ⊢
        rw [hr] at h ⊢
        rwa [show (c :: d :: ds).getLast? = (d :: ds).getLast? from
          List.getLast?_cons_cons ..] at h
      rw [← hr] at *
      obtain ⟨ih1, ih2⟩ := ih hrest
      by_cases hc : c.isWhitespace
      · constructor
        · rw [countRunsAux, wsRunsAux]
          simp [hc, ih2]
        · rw [countRunsAux, wsRunsAux]
          simp [hc, ih2]
      · constructor
        · rw [countRunsAux, wsRunsAux]
          simp [hc, ih1]
        · rw [countRunsAux, wsRunsAux]
          simp [hc, ih1]

/-! ### `extractAtomicAnswers`: word-count lemmas -/

lemma wsRunsAux_headSolid {l : Str} (h : headSolid l = true) :
    wsRunsAux true l = wsRunsAux false l := by
  cases l with
  | nil => simp [headSolid] at h
  | cons c rest =>
    have hc : c.isWhitespace = false := by simpa [headSolid] using h
    rw [wsRunsAux, wsRunsAux]
    simp [hc]

lemma countRunsAux_dropTrail (l : Str) :
    ∀ st : Bool, countRunsAux st (dropTrailWS l) = countRunsAux st l := by
  induction l with
  | nil => intro st; rfl
  | cons c rest ih =>
    intro st
    rw [show dropTrailWS (c :: rest) =
        (if dropTrailWS rest = [] ∧ c.isWhitespace then []
         else c :: dropTrailWS rest) from rfl]
    split
    · next hcase =>
      obtain ⟨hnil, hws⟩ := hcase
      rw [show countRunsAux st (c :: rest) =
          (if c.isWhitespace then countRunsAux false rest
           else (if st then 0 else 1) + countRunsAux true rest) from rfl]
      rw [if_pos hws, ← ih false, hnil]
      simp [countRunsAux]
    · rw [countRunsAux, countRunsAux]
      by_cases hws : c.isWhitespace
      · simp [hws, ih]
      · simp [hws, ih]

lemma countRunsAux_dropWhileWS (l : Str) :
    countRunsAux false (l.dropWhile Char.isWhitespace) = countRunsAux false l := by
  induction l with
  | nil => rfl
  | cons c rest ih =>
    by_cases hws : c.isWhitespace
    · rw [List.dropWhile_cons_of_pos hws, ih, countRunsAux]
      simp [hws]
    · rw [List.dropWhile_cons_of_neg (by simpa using hws)]

lemma countRuns_jsTrim (l : Str) : countRuns (jsTrim l) = countRuns l := by
  rw [countRuns, countRuns, jsTrim, countRunsAux_dropTrail, countRunsAux_dropWhileWS]

lemma dropTrailWS_cons_shape (c : Char) (rest : Str) (h : dropTrailWS (c :: rest) ≠ []) :
    dropTrailWS (c :: rest) = c :: dropTrailWS rest := by
  rw [show dropTrailWS (c :: rest) =
      (if dropTrailWS rest = [] ∧ c.isWhitespace then []
       else c :: dropTrailWS rest) from rfl] at h ⊢
  split at h
  · exact absurd rfl h
  · next hcase => rw [if_neg hcase]

lemma getLastQ_cons_ne {α : Type} (x : α) (l : List α) (h : l ≠ []) :
    (x :: l).getLast? = l.getLast? := by
  rw [show x :: l = [x] ++ l from rfl]
  exact List.getLast?_append_of_ne_nil _ h

lemma headSolid_jsTrim {l : Str} (h : jsTrim l ≠ []) : headSolid (jsTrim l) = true := by
  unfold jsTrim at h ⊢
  generalize hd : l.dropWhile Char.isWhitespace = m at h ⊢
  cases m with
  | nil => exact absurd rfl h
  | cons c rest =>
    have hc : c.isWhitespace = false := by
      have h2 := List.head?_dropWhile_not Char.isWhitespace l
      rw [hd] at h2
      simpa using h2
    rw [dropTrailWS_cons_shape c rest h]
    simpa [headSolid] using hc

lemma endsSolid_dropTrail (l : Str) : ∀ _h : dropTrailWS l ≠ [],
    endsSolid (dropTrailWS l) = true := by
  induction l with
  | nil => intro h; exact absurd rfl h
  | cons c rest ih =>
    intro h
    have hshape := dropTrailWS_cons_shape c rest h
    by_cases hr : dropTrailWS rest = []
    · have hc : c.isWhitespace = false := by
        by_contra hcon
        simp only [Bool.not_eq_false] at hcon
        apply h
        rw [show dropTrailWS (c :: rest) =
            (if dropTrailWS rest = [] ∧ c.isWhitespace then []
             else c :: dropTrailWS rest) from rfl]
        rw [if_pos ⟨hr, hcon⟩]
      rw [hshape, hr]
      simpa [endsSolid] using hc
    · have hrec := ih hr
      rw [hshape]
      unfold endsSolid at hrec ⊢
      rwa [getLastQ_cons_ne c _ hr]

lemma endsSolid_jsTrim {l : Str} (h : jsTrim l ≠ []) : endsSolid (jsTrim l) = true := by
  rw [jsTrim] at h ⊢
  exact endsSolid_dropTrail _ h

lemma jsTrim_ne_nil_of_mem {l : Str} {c : Char} (hc : c ∈ l) (hw : c.isWhitespace = false) :
    jsTrim l ≠ [] := by
  intro hnil
  have := jsTrim_eq_nil hnil c hc
  rw [this] at hw
  exact Bool.true_eq_false ▸ hw

lemma countRunsAux_append_space (a : Str) :
    ∀ (st : Bool) (b : Str),
      countRunsAux st (a ++ ' ' :: b) = countRunsAux st a + countRunsAux false b := by
  induction a with
  | nil =>
    intro st b
    rw [List.nil_append, countRunsAux]
    simp [countRunsAux]
  | cons c rest ih =>
    intro st b
    rw [List.cons_append, countRunsAux, countRunsAux]
    by_cases hws : c.isWhitespace
    · simp [hws, ih]
    · simp [hws, ih]
      omega

/-- On any string containing a non-whitespace character, the source's word
counter agrees with the run count `countRuns`. -/
lemma wordsOf_eq_countRuns {s : Str} (h : ∃ c ∈ s, c.isWhitespace = false) :
    wordsOf s = countRuns s := by
  obtain ⟨c, hc, hw⟩ := h
  have htrim : jsTrim s ≠ [] := jsTrim_ne_nil_of_mem hc hw
  have hhead := headSolid_jsTrim htrim
  have hends := endsSolid_jsTrim htrim
  have h1 : wordsOf s = 1 + wsRunsAux false (jsTrim s) := by
    rw [wordsOf, jsSplitWS, jsSplitWSAux_length]
  have h2 : countRuns (jsTrim s) = 1 + wsRunsAux true (jsTrim s) :=
    (countRuns_dual _ hends).2
  rw [← countRuns_jsTrim s, h2, h1, wsRunsAux_headSolid hhead]

lemma isTerm_not_ws {c : Char} (h : isTerm c = true) : c.isWhitespace = false := by
  simp only [isTerm, Bool.or_eq_true, decide_eq_true_eq] at h
  rcases h with (h | h) | h <;> subst h <;> decide

/-- Every matched sentence contains a terminator character. -/
lemma matchSentencesAux_hasTerm (l : Str) :
    ∀ (run terms : Str),
      (∀ c ∈ terms, isTerm c = true) →
      ∀ s ∈ matchSentencesAux run terms l, ∃ c ∈ s, isTerm c = true := by
  induction l with
  | nil =>
    intro run terms hterms s hs
    rw [matchSentencesAux] at hs
    split at hs
    · simp at hs
    · next hne =>
      simp only [List.mem_singleton] at hs
      subst hs
      obtain ⟨c, hc⟩ := List.exists_mem_of_ne_nil terms hne
      exact ⟨c, by simp [hc], hterms c hc⟩
  | cons c rest ih =>
    intro run terms hterms s hs
    rw [matchSentencesAux] at hs
    split at hs
    · split at hs
      · split at hs
        · exact ih [] [] (by simp) s hs
        · next hterm _ =>
          refine ih run [c] ?_ s hs
          intro x hx
          simp only [List.mem_singleton] at hx
          subst hx
          assumption
      · exact ih (c :: run) [] (by simp) s hs
    · next hne =>
      split at hs
      · next hterm =>
        refine ih run (c :: terms) ?_ s hs
        intro x hx
        rcases List.mem_cons.mp hx with rfl | hx
        · assumption
        · exact hterms x hx
      · rcases List.mem_cons.mp hs with rfl | hs2
        · obtain ⟨x, hx⟩ := List.exists_mem_of_ne_nil terms hne
          exact ⟨x, by simp [hx], hterms x hx⟩
        · exact ih [c] [] (by simp) s hs2

lemma matchSentences_solid (content : Str) :
    ∀ s ∈ matchSentences content, ∃ c ∈ s, c.isWhitespace = false := by
  intro s hs
  obtain ⟨c, hc, hterm⟩ := matchSentencesAux_hasTerm content [] [] (by simp) s hs
  exact ⟨c, hc, isTerm_not_ws hterm⟩

/-- Invariant of the answer loop: with every sentence at most 60 words and
containing a non-whitespace character, every emitted answer has at most 60
words. -/
lemma atomicLoop_bound (heading : Str) :
    ∀ (ss : List Str) (answers : List AtomicAnswer) (cur : Str) (wc : Nat),
      (∀ s ∈ ss, wordsOf s ≤ 60 ∧ ∃ c ∈ s, c.isWhitespace = false) →
      (∀ a ∈ answers, countRuns a.answer ≤ 60) →
      countRuns cur = wc →
      (jsTrim cur = [] → wc = 0) →
      wc ≤ 60 →
      ∀ a ∈ atomicLoop heading ss answers cur wc, countRuns a.answer ≤ 60 := by
  intro ss
  induction ss with
  | nil =>
    intro answers cur wc _ hans hcount _ _ a ha
    rw [atomicLoop] at ha
    split at ha
    · next hcond =>
      rcases List.mem_append.mp ha with h | h
      · exact hans a h
      · simp only [List.mem_singleton] at h
        subst h
        show countRuns (jsTrim cur) ≤ 60
        rw [countRuns_jsTrim, hcount]
        exact hcond.2.2
    · exact hans a ha
  | cons s rest ih =>
    intro answers cur wc hss hans hcount himp hle a ha
    obtain ⟨hw60, hsolid⟩ := hss s (by simp)
    obtain ⟨cs, hcs, hcw⟩ := hsolid
    have htrims : jsTrim s ≠ [] := jsTrim_ne_nil_of_mem hcs hcw
    have hwords : wordsOf s = countRuns s := wordsOf_eq_countRuns ⟨cs, hcs, hcw⟩
    have hsolidtrim : ∃ c ∈ jsTrim s, c.isWhitespace = false := by
      cases ht : jsTrim s with
      | nil => exact absurd ht htrims
      | cons d ds =>
        have := headSolid_jsTrim htrims
        rw [ht] at this
        exact ⟨d, by simp, by simpa [headSolid] using this⟩
    have hss' : ∀ t ∈ rest, wordsOf t ≤ 60 ∧ ∃ c ∈ t, c.isWhitespace = false :=
      fun t ht => hss t (by simp [ht])
    have hcount_trim : countRuns (jsTrim s) = countRuns s := countRuns_jsTrim s
    rw [atomicLoop] at ha
    split at ha
    · next hcond =>
      refine ih (answers ++ [mkAnswer heading answers.length cur]) (' ' :: jsTrim s)
        (wordsOf s) hss' ?_ ?_ ?_ ?_ a ha
      · intro b hb
        rcases List.mem_append.mp hb with h | h
        · exact hans b h
        · simp only [List.mem_singleton] at h
          subst h
          show countRuns (jsTrim cur) ≤ 60
          rw [countRuns_jsTrim, hcount]
          exact hle
      · have : countRuns (' ' :: jsTrim s) = countRuns (jsTrim s) := by
          rw [countRuns, countRunsAux]
          simp [countRuns]
        rw [this, hcount_trim, hwords]
      · intro hnil
        obtain ⟨d, hd, hdw⟩ := hsolidtrim
        have : jsTrim (' ' :: jsTrim s) ≠ [] :=
          jsTrim_ne_nil_of_mem (by simp [hd]) hdw
        exact absurd hnil this
      · rw [hwords, ← hcount_trim]
        calc countRuns (jsTrim s) = wordsOf s := by rw [hcount_trim, hwords]
          _ ≤ 60 := hw60
    · next hcond =>
      push_neg at hcond
      refine ih answers (cur ++ ' ' :: jsTrim s) (wc + wordsOf s) hss' hans ?_ ?_ ?_ a ha
      · rw [countRuns, countRunsAux_append_space]
        rw [show countRunsAux false cur = countRuns cur from rfl, hcount]
        rw [show countRunsAux false (jsTrim s) = countRuns (jsTrim s) from rfl]
        rw [hcount_trim, hwords]
      · intro hnil
        obtain ⟨d, hd, hdw⟩ := hsolidtrim
        have : jsTrim (cur ++ ' ' :: jsTrim s) ≠ [] :=
          jsTrim_ne_nil_of_mem (by simp [hd]) hdw
        exact absurd hnil this
      · by_cases htc : jsTrim cur = []
        · rw [himp htc]
          simpa using hw60
        · by_contra hgt
          push_neg at hgt
          exact htc (hcond hgt)

/-- C1 (amended): provided no single sentence exceeds 60 words, every answer
returned by `extractAtomicAnswers` has word count at most 60; the 40-word
lower bound is enforced only for the trailing flush, and mid-loop flushed
answers can fall below it (see the counterexample). -/
theorem atomic_answers_word_bound (content heading : Str)
    (hs : ∀ s ∈ matchSentences content, wordsOf s ≤ 60) :
    ∀ a ∈ extractAtomicAnswers content heading, countRuns a.answer ≤ 60 := by
  apply atomicLoop_bound heading (matchSentences content) [] [] 0
  · intro s hsmem
    exact ⟨hs s hsmem, matchSentences_solid content s hsmem⟩
  · simp
  · rfl
  · intro _
    rfl
  · omega

set_option maxRecDepth 10000

/-- C1 counterexample: a 30-word sentence followed by a 35-word sentence makes
the loop flush the 30-word buffer (the mid-loop flush has no 40-word lower
bound), so an answer with word count 30, outside `[40, 60]`, is emitted. -/
theorem atomic_answers_below_band :
    ((extractAtomicAnswers (("w w w w w w w w w w w w w w w w w w w w w w w w w w w w w w. u u u u u u u u u u u u u u u u u u u u u u u u u u u u u u u u u u u!").data) (("Heading").data)).map
      (fun a => countRuns a.answer)) = [30] := by decide

/-- Witness for `atomic_answers_word_bound`: two 25-word sentences yield a
single 50-word answer, within the bound. -/
theorem atomic_answers_word_bound_witness :
    ((extractAtomicAnswers (("v v v v v v v v v v v v v v v v v v v v v v v v v. u u u u u u u u u u u u u u u u u u u u u u u u u.").data) (("H").data)).all
      (fun a => decide (countRuns a.answer ≤ 60))) = true := by
  have h := atomic_answers_word_bound (("v v v v v v v v v v v v v v v v v v v v v v v v v. u u u u u u u u u u u u u u u u u u u u u u u u u.").data) (("H").data) (by decide)
  rw [List.all_eq_true]
  intro a ha
  exact decide_eq_true (h a ha)

lemma insertBy_perm {α : Type} (le : α → α → Bool) (x : α) :
    ∀ l : List α, List.Perm (insertBy le x l) (x :: l) := by
  intro l
  induction l with
  | nil => rfl
  | cons y ys ih =>
    rw [insertBy]
    split
    · rfl
    · exact (List.Perm.cons y ih).trans (List.Perm.swap x y ys)

lemma stableSortBy_perm {α : Type} (le : α → α → Bool) :
    ∀ l : List α, List.Perm (stableSortBy le l) l := by
  intro l
  induction l with
  | nil => rfl
  | cons a rest ih =>
    exact (insertBy_perm le a (stableSortBy le rest)).trans (List.Perm.cons a ih)

lemma insertBy_chain {α : Type} (le : α → α → Bool)
    (htot : ∀ a b, le a b = true ∨ le b a = true) (x : α) :
    ∀ l : List α, List.Chain' (fun a b => le a b = true) l →
      List.Chain' (fun a b => le a b = true) (insertBy le x l) := by
  intro l
  induction l with
  | nil => intro _; exact List.chain'_singleton x
  | cons y ys ih =>
    intro hchain
    rw [insertBy]
    split
    · next hxy =>
      exact List.Chain'.cons hxy hchain
    · next hxy =>
      have hyx : le y x = true := by
        rcases htot x y with h | h
        · exact absurd h hxy
        · exact h
      refine List.Chain'.cons' (ih hchain.tail) ?_
      intro z hz
      cases ys with
      | nil =>
        simp only [insertBy, List.head?_cons, Option.mem_def, Option.some.injEq] at hz
        subst hz
        exact hyx
      | cons w ws =>
        rw [insertBy] at hz
        split at hz
        · simp only [List.head?_cons, Option.mem_def, Option.some.injEq] at hz
          subst hz
          exact hyx
        · simp only [List.head?_cons, Option.mem_def, Option.some.injEq] at hz
          subst hz
          exact (List.chain'_cons.mp hchain).1

lemma stableSortBy_chain {α : Type} (le : α → α → Bool)
    (htot : ∀ a b, le a b = true ∨ le b a = true) :
    ∀ l : List α, List.Chain' (fun a b => le a b = true) (stableSortBy le l) := by
  intro l
  induction l with
  | nil => exact List.chain'_nil
  | cons a rest ih => exact insertBy_chain le htot a _ ih

lemma insertBy_filter {α : Type} (le : α → α → Bool) (p : α → Bool)
    (hclass : ∀ a b, p a = true → p b = true → le a b = true) (x : α) :
    ∀ l : List α,
      (insertBy le x l).filter p =
        if p x then x :: l.filter p else l.filter p := by
  intro l
  induction l with
  | nil => by_cases hpx : p x <;> simp [insertBy, List.filter_cons, hpx]
  | cons y ys ih =>
    rw [insertBy]
    split
    · next hxy =>
      by_cases hpx : p x
      · simp [List.filter, hpx]
      · simp only [List.filter, hpx]
        simp [hpx]
    · next hxy =>
      by_cases hpy : p y
      · have hpx : p x = false := by
          by_contra hcon
          simp only [Bool.not_eq_false] at hcon
          exact hxy (hclass x y hcon hpy)
        simp only [List.filter_cons, hpy, if_true, ih, hpx]
        simp [hpx, hpy]
      · simp only [List.filter_cons, hpy]
        simp only [ih]
        by_cases hpx : p x
        · simp [hpx, hpy]
        · simp [hpx, hpy]

lemma stableSortBy_filter {α : Type} (le : α → α → Bool) (p : α → Bool)
    (hclass : ∀ a b, p a = true → p b = true → le a b = true) :
    ∀ l : List α, (stableSortBy le l).filter p = l.filter p := by
  intro l
  induction l with
  | nil => rfl
  | cons a rest ih =>
    show (insertBy le a (stableSortBy le rest)).filter p = _
    rw [insertBy_filter le p hclass]
    by_cases hpa : p a
    · simp [hpa, ih, List.filter_cons]
    · simp [hpa, ih, List.filter_cons]

/-- Scored-list characterisation of a successful `mapM` in `rankChunksForQuery`. -/
lemma rank_scored_spec (query : Str) :
    ∀ (chunks : List ChunkedContent) (scored : List (ChunkedContent × ℚ)),
      chunks.mapM (fun c =>
        (calculateSimilarityScore query c.content).map (fun sc => (c, sc))) = some scored →
      scored.map Prod.fst = chunks ∧
      ∀ p ∈ scored, calculateSimilarityScore query p.1.content = some p.2 := by
  intro chunks
  induction chunks with
  | nil =>
    intro scored h
    simp only [List.mapM_nil, pure, Option.some.injEq] at h
    subst h
    exact ⟨rfl, by simp⟩
  | cons c rest ih =>
    intro scored h
    rw [List.mapM_cons] at h
    cases hc : calculateSimilarityScore query c.content with
    | none => rw [hc] at h; simp at h
    | some sc =>
      rw [hc] at h
      cases hrest : rest.mapM (fun c =>
          (calculateSimilarityScore query c.content).map (fun sc => (c, sc))) with
      | none => rw [hrest] at h; simp at h
      | some scoredRest =>
        rw [hrest] at h
        simp at h
        obtain ⟨h1, h2⟩ := ih scoredRest hrest
        subst h
        constructor
        · simp [h1]
        · intro p hp
          rcases List.mem_cons.mp hp with rfl | hp2
          · exact hc
          · exact h2 p hp2

/-- C5: whenever `rankChunksForQuery` returns (no scoring term throws), it
returns at most `topK` chunks, in non-increasing relevance-score order, and
chunks of equal score keep their original relative order (the returned
equal-score subsequence is a prefix of the input's). -/
theorem rank_chunks_spec (chunks : List ChunkedContent) (query : Str) (topK : Nat)
    (result : List ChunkedContent)
    (h : rankChunksForQuery chunks query topK = some result) :
    result.length ≤ topK ∧
    List.Pairwise (fun a b => (calculateSimilarityScore query b.content).getD 0 ≤
      (calculateSimilarityScore query a.content).getD 0) result ∧
    ∀ s : ℚ,
      result.filter (fun c => decide (calculateSimilarityScore query c.content = some s)) <+:
        chunks.filter (fun c => decide (calculateSimilarityScore query c.content = some s)) := by
  unfold rankChunksForQuery at h
  cases hm : chunks.mapM (fun c =>
      (calculateSimilarityScore query c.content).map (fun sc => (c, sc))) with
  | none => rw [hm] at h; simp at h
  | some scored =>
    rw [hm] at h
    replace h : ((stableSortBy (fun a b : ChunkedContent × ℚ => decide (b.2 ≤ a.2))
        scored).take topK).map Prod.fst = result := by simpa using h
    obtain ⟨hfst, hsc⟩ := rank_scored_spec query chunks scored hm
    have htakemem : ∀ p ∈ (stableSortBy
        (fun a b : ChunkedContent × ℚ => decide (b.2 ≤ a.2)) scored).take topK, p ∈ scored := by
      intro p hp
      have h1 : p ∈ stableSortBy (fun a b : ChunkedContent × ℚ => decide (b.2 ≤ a.2)) scored :=
        ((List.take_prefix topK _).sublist).subset hp
      exact (stableSortBy_perm _ scored).mem_iff.mp h1
    refine ⟨?_, ?_, ?_⟩
    · rw [← h]
      simp only [List.length_map]
      exact List.length_take_le topK _
    · have htot : ∀ a b : ChunkedContent × ℚ,
          decide (b.2 ≤ a.2) = true ∨ decide (a.2 ≤ b.2) = true := by
        intro a b
        rcases le_total b.2 a.2 with hle | hle
        · exact Or.inl (decide_eq_true hle)
        · exact Or.inr (decide_eq_true hle)
      have hchain := stableSortBy_chain _ htot scored
      haveI : IsTrans (ChunkedContent × ℚ)
          (fun a b => decide (b.2 ≤ a.2) = true) := by
        constructor
        intro a b c hab hbc
        simp only [decide_eq_true_eq] at *
        exact le_trans hbc hab
      have hpair := List.chain'_iff_pairwise.mp hchain
      have hpairtake := hpair.sublist (List.take_prefix topK _).sublist
      rw [← h, List.pairwise_map]
      refine hpairtake.imp_of_mem ?_
      intro a b ha hb hab
      have hsa := hsc a (htakemem a ha)
      have hsb := hsc b (htakemem b hb)
      rw [hsa, hsb]
      simpa using hab
    · intro s
      have hclass : ∀ a b : ChunkedContent × ℚ,
          decide (a.2 = s) = true → decide (b.2 = s) = true → decide (b.2 ≤ a.2) = true := by
        intro a b ha hb
        simp only [decide_eq_true_eq] at *
        rw [ha, hb]
      have hres : result.filter
          (fun c => decide (calculateSimilarityScore query c.content = some s)) =
          (((stableSortBy (fun a b : ChunkedContent × ℚ => decide (b.2 ≤ a.2)) scored).take
            topK).filter (fun q => decide (q.2 = s))).map Prod.fst := by
        rw [← h, List.filter_map]
        congr 1
        refine List.filter_congr ?_
        intro q hq
        have := hsc q (htakemem q hq)
        simp only [Function.comp_apply, this]
        simp
      have hchunks : chunks.filter
          (fun c => decide (calculateSimilarityScore query c.content = some s)) =
          (scored.filter (fun q => decide (q.2 = s))).map Prod.fst := by
        rw [← hfst, List.filter_map]
        congr 1
        refine List.filter_congr ?_
        intro q hq
        have := hsc q hq
        simp only [Function.comp_apply, this]
        simp
      rw [hres, hchunks]
      refine List.IsPrefix.map Prod.fst ?_
      rw [← stableSortBy_filter (fun a b : ChunkedContent × ℚ => decide (b.2 ≤ a.2))
        (fun q => decide (q.2 = s)) hclass scored]
      exact (List.take_prefix topK _).filter _

/-- Witness for `rank_chunks_spec`: ranking two chunks for `"apple"` succeeds
and returns at most `topK = 1` chunk. -/
theorem rank_chunks_spec_witness :
    rankChunksForQuery [exChunkA, exChunkB] (("apple").data) 1 = some [exChunkA] ∧
    ([exChunkA] : List ChunkedContent).length ≤ 1 := by
  have hrank : rankChunksForQuery [exChunkA, exChunkB] (("apple").data) 1 =
      some [exChunkA] := by decide
  exact ⟨hrank, (rank_chunks_spec _ _ _ _ hrank).1⟩

lemma dedupFirstAux_mem : ∀ (l seen : List Str) (x : Str),
    x ∈ dedupFirstAux seen l ↔ (x ∈ l ∧ x ∉ seen) := by
  intro l
  induction l with
  | nil => intro seen x; simp [dedupFirstAux]
  | cons y rest ih =>
    intro seen x
    rw [dedupFirstAux]
    split
    · next hy =>
      rw [decide_eq_true_eq] at hy
      rw [ih]
      constructor
      · rintro ⟨hx, hns⟩
        exact ⟨List.mem_cons_of_mem y hx, hns⟩
      · rintro ⟨hx, hns⟩
        rcases List.mem_cons.mp hx with rfl | hx2
        · exact absurd hy hns
        · exact ⟨hx2, hns⟩
    · next hy =>
      rw [decide_eq_true_eq] at hy
      simp only [List.mem_cons, ih]
      constructor
      · rintro (rfl | ⟨hx, hns⟩)
        · exact ⟨Or.inl rfl, hy⟩
        · refine ⟨Or.inr hx, ?_⟩
          intro hcon
          exact hns (Or.inr hcon)
      · rintro ⟨rfl | hx, hns⟩
        · exact Or.inl rfl
        · by_cases hxy : x = y
          · exact Or.inl hxy
          · refine Or.inr ⟨hx, ?_⟩
            intro hcon
            rcases hcon with h | h
            · exact hxy h
            · exact hns h

lemma dedupFirstAux_nodup : ∀ (l seen : List Str), (dedupFirstAux seen l).Nodup := by
  intro l
  induction l with
  | nil => intro seen; simp [dedupFirstAux]
  | cons y rest ih =>
    intro seen
    rw [dedupFirstAux]
    split
    · exact ih seen
    · refine List.Nodup.cons ?_ (ih (y :: seen))
      intro hcon
      have := (dedupFirstAux_mem rest (y :: seen) y).mp hcon
      exact this.2 (List.mem_cons_self y seen)

lemma dedupFirst_mem (l : List Str) (x : Str) : x ∈ dedupFirst l ↔ x ∈ l := by
  rw [dedupFirst, dedupFirstAux_mem]
  simp

lemma dedupFirst_nodup (l : List Str) : (dedupFirst l).Nodup := dedupFirstAux_nodup l []

lemma dedupFirst_toFinset (l : List Str) : (dedupFirst l).toFinset = l.toFinset := by
  ext x
  simp [List.mem_toFinset, dedupFirst_mem]

lemma dedupFirst_length (l : List Str) : (dedupFirst l).length = l.toFinset.card := by
  rw [← dedupFirst_toFinset, List.toFinset_card_of_nodup (dedupFirst_nodup l)]

/-- The intersection count of `calculateSimilarity` is the cardinality of the
keyword-set intersection. -/
lemma inter_count_eq (k1 k2 : List Str) :
    ((dedupFirst k1).filter (fun w => decide (w ∈ dedupFirst k2))).length =
      (k1.toFinset ∩ k2.toFinset).card := by
  have hnd : ((dedupFirst k1).filter (fun w => decide (w ∈ dedupFirst k2))).Nodup :=
    (dedupFirst_nodup k1).filter _
  rw [← List.toFinset_card_of_nodup hnd, List.toFinset_filter]
  congr 1
  ext x
  simp only [Finset.mem_filter, List.mem_toFinset, Finset.mem_inter, decide_eq_true_eq,
    dedupFirst_mem]

/-- C8: `calculateSimilarity` is exactly the Jaccard similarity
`|A∩B| / (|A|+|B|-|A∩B|)` of the two top-10 keyword sets, lies in `[0, 1]`
(zero when the union is empty), equals `1` on identical content with at least
one keyword, and equals `0` when the keyword lists share no word. -/
theorem similarity_jaccard_spec (c1 c2 : Str) :
    calculateSimilarity c1 c2 =
      jaccardSpec (extractKeywords c1 10).toFinset (extractKeywords c2 10).toFinset ∧
    0 ≤ calculateSimilarity c1 c2 ∧ calculateSimilarity c1 c2 ≤ 1 ∧
    (extractKeywords c1 10 ≠ [] → calculateSimilarity c1 c1 = 1) ∧
    ((∀ w ∈ extractKeywords c1 10, w ∉ extractKeywords c2 10) →
      calculateSimilarity c1 c2 = 0) := by
  have harith : ∀ iC aC bC uC : Nat, uC + iC = aC + bC → iC ≤ aC → iC ≤ bC →
      (if aC + bC - iC = 0 then (0:ℚ) else mkRat (iC : Int) (aC + bC - iC)) =
        (if uC = 0 then (0:ℚ) else (iC : ℚ) / ((aC : ℚ) + (bC : ℚ) - (iC : ℚ))) ∧
      0 ≤ (if aC + bC - iC = 0 then (0:ℚ) else mkRat (iC : Int) (aC + bC - iC)) ∧
      (if aC + bC - iC = 0 then (0:ℚ) else mkRat (iC : Int) (aC + bC - iC)) ≤ 1 := by
    intro iC aC bC uC hIE hiA hiB
    have huC : aC + bC - iC = uC := by omega
    rw [huC]
    by_cases hu : uC = 0
    · rw [if_pos hu, if_pos hu]
      norm_num
    · rw [if_neg hu, if_neg hu]
      have hupos : (0:ℚ) < (uC : ℚ) := by exact_mod_cast Nat.pos_of_ne_zero hu
      have hdiv : mkRat (iC : Int) uC = (iC : ℚ) / (uC : ℚ) := by
        rw [Rat.mkRat_eq_div]
        push_cast
        ring
      refine ⟨?_, ?_, ?_⟩
      · rw [hdiv]
        congr 1
        have : (uC : ℚ) + (iC : ℚ) = (aC : ℚ) + (bC : ℚ) := by exact_mod_cast hIE
        linarith
      · rw [hdiv]
        positivity
      · rw [hdiv]
        rw [div_le_one hupos]
        have : iC ≤ uC := by omega
        exact_mod_cast this
  have hmain : ∀ a b : Str,
      calculateSimilarity a b =
        jaccardSpec (extractKeywords a 10).toFinset (extractKeywords b 10).toFinset ∧
      0 ≤ calculateSimilarity a b ∧ calculateSimilarity a b ≤ 1 := by
    intro a b
    have h1 := dedupFirst_length (extractKeywords a 10)
    have h2 := dedupFirst_length (extractKeywords b 10)
    have hi := inter_count_eq (extractKeywords a 10) (extractKeywords b 10)
    have hIE := Finset.card_union_add_card_inter
      (extractKeywords a 10).toFinset (extractKeywords b 10).toFinset
    have hiA : ((extractKeywords a 10).toFinset ∩ (extractKeywords b 10).toFinset).card ≤
        (extractKeywords a 10).toFinset.card :=
      Finset.card_le_card Finset.inter_subset_left
    have hiB : ((extractKeywords a 10).toFinset ∩ (extractKeywords b 10).toFinset).card ≤
        (extractKeywords b 10).toFinset.card :=
      Finset.card_le_card Finset.inter_subset_right
    rw [calculateSimilarity, jaccardSpec, hi, h1, h2]
    exact harith _ _ _ _ hIE hiA hiB
  refine ⟨(hmain c1 c2).1, (hmain c1 c2).2.1, (hmain c1 c2).2.2, ?_, ?_⟩
  · intro hne
    rw [calculateSimilarity]
    set L := dedupFirst (extractKeywords c1 10) with hL
    have hfull : (L.filter (fun w => decide (w ∈ L))).length = L.length := by
      rw [List.filter_eq_self.mpr (fun w hw => decide_eq_true hw)]
    rw [hfull]
    have hs1ne : L ≠ [] := by
      cases hk : extractKeywords c1 10 with
      | nil => exact absurd hk hne
      | cons w ws =>
        intro hcon
        have hwmem : w ∈ L := by
          rw [hL, dedupFirst_mem, hk]
          exact List.mem_cons_self w ws
        rw [hcon] at hwmem
        simp at hwmem
    have hlpos : 0 < L.length := List.length_pos.mpr hs1ne
    rw [show L.length + L.length - L.length = L.length from by omega]
    rw [if_neg (by omega)]
    rw [Rat.mkRat_eq_div]
    have hne' : (L.length : ℚ) ≠ 0 := by exact_mod_cast hlpos.ne'
    push_cast
    exact div_self hne'
  · intro hd
    rw [calculateSimilarity]
    set L1 := dedupFirst (extractKeywords c1 10) with hL1
    set L2 := dedupFirst (extractKeywords c2 10) with hL2
    have hzero : (L1.filter (fun w => decide (w ∈ L2))).length = 0 := by
      rw [List.length_eq_zero]
      rw [List.filter_eq_nil_iff]
      intro w hw
      simp only [decide_eq_true_eq]
      rw [hL2, dedupFirst_mem]
      exact hd w ((dedupFirst_mem _ _).mp (hL1 ▸ hw))
    rw [hzero]
    split
    · rfl
    · rw [Rat.mkRat_eq_div]
      push_cast
      exact zero_div _

/-- Witness for `similarity_jaccard_spec`: identical content with keyword
`"apple"` scores 1; disjoint keyword sets score 0. -/
theorem similarity_jaccard_spec_witness :
    calculateSimilarity (("apple apple.").data) (("apple apple.").data) = 1 ∧
    calculateSimilarity (("apple apple.").data) (("zebra zebra.").data) = 0 := by
  refine ⟨?_, ?_⟩
  · exact (similarity_jaccard_spec (("apple apple.").data)
      (("apple apple.").data)).2.2.2.1 (by decide)
  · exact (similarity_jaccard_spec (("apple apple.").data)
      (("zebra zebra.").data)).2.2.2.2 (by decide)

/-- A related article returned by `findRelatedArticles` never is the current
article itself: the candidate pool is filtered by `a.id !== cur.id`. -/
lemma findRelatedArticles_ne (cur : ArticleRec) (allArticles : List ArticleRec)
    (limit : Nat) :
    ∀ r ∈ findRelatedArticles cur allArticles limit, r.id ≠ cur.id := by
  intro r hr
  unfold findRelatedArticles at hr
  obtain ⟨p, hp, hpr⟩ := List.mem_map.mp hr
  have hp1 : p ∈ stableSortBy (fun x y : ArticleRec × ℚ => decide (y.2 ≤ x.2))
      (((allArticles.filter (fun a => decide (a.id ≠ cur.id))).map
          (fun a => (a, calculateSimilarity cur.content a.content))).filter
        (fun p => decide (mkRat 1 10 < p.2))) :=
    ((List.take_prefix limit _).sublist).subset hp
  have hp2 := (stableSortBy_perm _ _).mem_iff.mp hp1
  have hp3 := List.mem_of_mem_filter hp2
  obtain ⟨a, ha, hap⟩ := List.mem_map.mp hp3
  have ha2 := List.of_mem_filter ha
  rw [decide_eq_true_eq] at ha2
  rw [← hpr]
  rw [← hap]
  exact ha2

/-- Elements of the reference-resolution fold are either inherited or carry
type `references`. -/
lemma refs_fold_types (articles : List ArticleRec) :
    ∀ (refs : List Str) (cs : List KGConn) (c : KGConn),
      c ∈ refs.foldl (fun cs ref =>
        match articles.find? (fun a => decide (toLowerStr a.title = ref)) with
        | some rart =>
          if cs.any (fun c => decide (c.nodeId = rart.id)) then cs
          else cs ++ [{ nodeId := rart.id, ctype := ConnType.references }]
        | none => cs) cs →
      c ∈ cs ∨ c.ctype = ConnType.references := by
  intro refs
  induction refs with
  | nil => intro cs c hc; exact Or.inl hc
  | cons ref rest ih =>
    intro cs c hc
    rw [List.foldl_cons] at hc
    cases hfind : articles.find? (fun a => decide (toLowerStr a.title = ref)) with
    | none =>
      rw [hfind] at hc
      exact ih cs c hc
    | some rart =>
      rw [hfind] at hc
      dsimp only at hc
      by_cases hdup : (cs.any (fun c => decide (c.nodeId = rart.id))) = true
      · rw [if_pos hdup] at hc
        exact ih cs c hc
      · rw [if_neg hdup] at hc
        rcases ih _ c hc with hin | htype
        · rcases List.mem_append.mp hin with h | h
          · exact Or.inl h
          · simp only [List.mem_singleton] at h
            subst h
            exact Or.inr rfl
        · exact Or.inr htype

lemma foldl_inv {α β : Type} (P : β → Prop) (f : β → α → β)
    (hstep : ∀ b a, P b → P (f b a)) :
    ∀ (l : List α) (b : β), P b → P (l.foldl f b) := by
  intro l
  induction l with
  | nil => intro b hb; exact hb
  | cons a rest ih =>
    intro b hb
    rw [List.foldl_cons]
    exact ih (f b a) (hstep b a hb)

lemma mapSet_preserves (g : KGraph) (k : Str) (v : KGNode)
    (hg : NoRelSelf g)
    (hv : ∀ c ∈ v.connections, c.ctype = ConnType.related → c.nodeId ≠ k) :
    NoRelSelf (mapSet g k v) := by
  intro p hp
  rw [mapSet] at hp
  split at hp
  · obtain ⟨q, hq, hqp⟩ := List.mem_map.mp hp
    by_cases hqk : q.1 = k
    · rw [if_pos hqk] at hqp
      subst hqp
      exact hv
    · rw [if_neg hqk] at hqp
      subst hqp
      exact hg q hq
  · rcases List.mem_append.mp hp with h | h
    · exact hg p h
    · simp only [List.mem_singleton] at h
      subst h
      exact hv

lemma mapGet_some_mem {g : KGraph} {k : Str} {node : KGNode}
    (h : mapGet g k = some node) : (k, node) ∈ g := by
  rw [mapGet] at h
  cases hfind : g.find? (fun p => decide (p.1 = k)) with
  | none => rw [hfind] at h; simp at h
  | some p =>
    rw [hfind] at h
    have h2 : p.2 = node := by simpa using h
    have hmem := List.mem_of_find?_eq_some hfind
    have hpred := List.find?_some hfind
    rw [decide_eq_true_eq] at hpred
    have : p = (k, node) := by
      cases p with
      | mk p1 p2 =>
        simp only at hpred h2
        rw [hpred, h2]
    rw [← this]
    exact hmem

lemma knowledgeStep_preserves (articles : List ArticleRec) (maxConn : Nat) :
    ∀ (g : KGraph) (article : ArticleRec),
      NoRelSelf g → NoRelSelf (knowledgeStep articles maxConn g article) := by
  intro g article hg
  rw [knowledgeStep]
  cases hget : mapGet g article.id with
  | none => exact hg
  | some node =>
    dsimp only
    apply mapSet_preserves _ _ _ hg
    intro c hc htype
    have hnodemem := mapGet_some_mem hget
    rcases refs_fold_types articles _ _ c hc with hin | hrefs
    · rcases List.mem_append.mp hin with h | h
      · exact hg _ hnodemem c h htype
      · obtain ⟨r, hr, hrc⟩ := List.mem_map.mp h
        have := findRelatedArticles_ne article articles maxConn r hr
        rw [← hrc]
        exact this
    · rw [hrefs] at htype
      exact absurd htype (by simp)

/-- C4 (amended): no node of `buildKnowledgeGraph` carries a `related` edge to
itself, for every corpus and every `maxConnectionsPerArticle`; self-edges of
type `references` are possible when an article's content references its own
title (see the counterexample). -/
theorem knowledge_graph_no_related_self (articles : List ArticleRec) (maxConn : Nat) :
    ∀ p ∈ buildKnowledgeGraph articles maxConn, ∀ c ∈ p.2.connections,
      c.ctype = ConnType.related → c.nodeId ≠ p.1 := by
  have hinit : NoRelSelf (articles.foldl (fun g a =>
      mapSet g a.id { id := a.id, title := a.title, slug := a.slug, connections := [] }) []) := by
    apply foldl_inv
    · intro g a hg
      apply mapSet_preserves _ _ _ hg
      intro c hc
      simp at hc
    · intro p hp
      simp at hp
  exact foldl_inv NoRelSelf (knowledgeStep articles maxConn)
    (knowledgeStep_preserves articles maxConn) articles _ hinit

/-- C4 counterexample: an article whose content contains `[[Alpha]]` matching
its own title receives a `references` self-edge, refuting the no-self-edge
invariant for edges of either type. -/
theorem knowledge_graph_self_reference :
    ((buildKnowledgeGraph [cexArticle] 10).any
      (fun p => p.2.connections.any (fun c => decide (c.nodeId = p.1)))) = true := by
  decide

/-- Witness for `knowledge_graph_no_related_self`: the `related` edge of node
`"a"` targets `"b"`, which the theorem guarantees differs from `"a"`. -/
theorem knowledge_graph_no_related_self_witness :
    ((("a").data, kgWitNodeA) ∈ buildKnowledgeGraph [witArtA, witArtB] 10) ∧
    (({ nodeId := ("b").data, ctype := ConnType.related } : KGConn) ∈
      kgWitNodeA.connections) ∧
    ("b").data ≠ ("a").data := by
  have h1 : (("a").data, kgWitNodeA) ∈ buildKnowledgeGraph [witArtA, witArtB] 10 := by
    decide
  have h2 : ({ nodeId := ("b").data, ctype := ConnType.related } : KGConn) ∈
      kgWitNodeA.connections := by decide
  exact ⟨h1, h2, knowledge_graph_no_related_self [witArtA, witArtB] 10 _ h1 _ h2 rfl⟩

lemma unvisitedCount_cons_lt (graph : KGraph) (visited : List Str) (x : Str)
    (hx : x ∈ allConnIds graph) (hnv : x ∉ visited) :
    unvisitedCount graph (x :: visited) < unvisitedCount graph visited := by
  unfold unvisitedCount
  have hcong : ((allConnIds graph).dedup).filter (fun y => decide (y ∉ x :: visited)) =
      (((allConnIds graph).dedup).filter (fun y => decide (y ∉ visited))).filter
        (fun y => decide (y ≠ x)) := by
    rw [List.filter_filter]
    refine List.filter_congr ?_
    intro y _
    by_cases h1 : y = x
    · subst h1
      simp
    · by_cases h2 : y ∈ visited
      · simp [h1, h2]
      · simp [h1, h2]
  rw [hcong]
  have hxmem : x ∈ ((allConnIds graph).dedup).filter (fun y => decide (y ∉ visited)) := by
    rw [List.mem_filter]
    exact ⟨List.mem_dedup.mpr hx, decide_eq_true hnv⟩
  refine List.length_filter_lt_length_iff_exists.mpr ?_
  exact ⟨x, hxmem, by simp⟩

lemma visitStep_measure (graph : KGraph) (limit : Nat) (st : RecState) (c : KGConn)
    (hc : c.nodeId ∈ allConnIds graph) :
    recMeasure graph (visitStep graph limit st c) ≤ recMeasure graph st := by
  rw [visitStep]
  split
  · exact le_refl _
  · next hnv =>
    rw [decide_eq_true_eq] at hnv
    have hlt := unvisitedCount_cons_lt graph st.visited c.nodeId hc hnv
    rw [recMeasure, recMeasure]
    dsimp only
    split
    · simp only [List.length_append, List.length_singleton]
      omega
    · omega

lemma visitConns_measure (graph : KGraph) (limit : Nat) :
    ∀ (conns : List KGConn) (st : RecState),
      (∀ c ∈ conns, c.nodeId ∈ allConnIds graph) →
      recMeasure graph (visitConns graph limit conns st) ≤ recMeasure graph st := by
  intro conns
  induction conns with
  | nil => intro st _; exact le_refl _
  | cons c rest ih =>
    intro st hc
    rw [visitConns, List.foldl_cons]
    refine le_trans (ih (visitStep graph limit st c) (fun d hd => hc d (by simp [hd]))) ?_
    exact visitStep_measure graph limit st c (hc c (by simp))

lemma node_conns_in_allConnIds {graph : KGraph} {k : Str} {node : KGNode}
    (h : mapGet graph k = some node) :
    ∀ c ∈ node.connections, c.nodeId ∈ allConnIds graph := by
  intro c hc
  have hmem := mapGet_some_mem h
  rw [allConnIds, List.mem_flatten]
  refine ⟨node.connections.map (fun c => c.nodeId), ?_, ?_⟩
  · rw [List.mem_map]
    exact ⟨(k, node), hmem, rfl⟩
  · rw [List.mem_map]
    exact ⟨c, hc, rfl⟩

/-- The fuel passed by `getRecommendations` is never exhausted: above the
measure, the result is fuel-independent. -/
lemma recLoopF_fuel_stable (graph : KGraph) (limit : Nat) :
    ∀ (fuel : Nat) (st : RecState), recMeasure graph st < fuel →
      recLoopF graph limit fuel st = recLoopF graph limit (fuel + 1) st := by
  intro fuel
  induction fuel with
  | zero =>
    intro st hst
    exact absurd hst (by omega)
  | succ f ih =>
    intro st hst
    rw [recLoopF, recLoopF]
    cases hq : st.queue with
    | nil => rfl
    | cons q qs =>
      dsimp only
      split
      · rfl
      · have hqlen : qs.length + 1 = st.queue.length := by rw [hq]; rfl
        have hm2 : recMeasure graph { queue := qs, visited := st.visited, recs := st.recs } + 1 =
            recMeasure graph st := by
          rw [recMeasure, recMeasure]
          dsimp only
          omega
        cases hget : mapGet graph q with
        | none =>
          refine ih _ ?_
          dsimp only
          omega
        | some node =>
          refine ih _ ?_
          have hm := visitConns_measure graph limit node.connections
            { queue := qs, visited := st.visited, recs := st.recs }
            (node_conns_in_allConnIds hget)
          dsimp only
          omega

lemma visitStep_inv (graph : KGraph) (limit : Nat) (a q : Str) (node : KGNode)
    (hq : Reach graph a q) (hnode : mapGet graph q = some node) :
    ∀ (st : RecState) (c : KGConn), c ∈ node.connections →
      RecInv graph a st → RecInv graph a (visitStep graph limit st c) := by
  intro st c hc hinv
  obtain ⟨hvis, hqueue, hrecs⟩ := hinv
  rw [visitStep]
  split
  · exact ⟨hvis, hqueue, hrecs⟩
  · next hnv =>
    rw [decide_eq_true_eq] at hnv
    have hreach : Reach graph a c.nodeId := by
      refine Relation.ReflTransGen.tail hq ?_
      exact ⟨node, hnode, List.mem_map.mpr ⟨c, hc, rfl⟩⟩
    have hne : c.nodeId ≠ a := by
      intro hcon
      rw [hcon] at hnv
      exact hnv hvis
    refine ⟨List.mem_cons_of_mem _ hvis, ?_, ?_⟩
    · intro k hk
      dsimp only at hk
      split at hk
      · rcases List.mem_append.mp hk with h | h
        · exact hqueue k h
        · simp only [List.mem_singleton] at h
          subst h
          exact hreach
      · exact hqueue k hk
    · intro p hp
      dsimp only at hp
      cases hget : mapGet graph c.nodeId with
      | none =>
        rw [hget] at hp
        exact hrecs p hp
      | some cn =>
        rw [hget] at hp
        dsimp only at hp
        split at hp
        · exact hrecs p hp
        · rcases List.mem_append.mp hp with h | h
          · exact hrecs p h
          · simp only [List.mem_singleton] at h
            subst h
            exact ⟨hne, hget, hreach⟩

lemma visitConns_inv (graph : KGraph) (limit : Nat) (a q : Str) (node : KGNode)
    (hq : Reach graph a q) (hnode : mapGet graph q = some node) :
    ∀ (conns : List KGConn) (st : RecState), (∀ c ∈ conns, c ∈ node.connections) →
      RecInv graph a st → RecInv graph a (visitConns graph limit conns st) := by
  intro conns
  induction conns with
  | nil => intro st _ hinv; exact hinv
  | cons c rest ih =>
    intro st hsub hinv
    rw [visitConns, List.foldl_cons]
    refine ih _ (fun d hd => hsub d (by simp [hd])) ?_
    exact visitStep_inv graph limit a q node hq hnode st c (hsub c (by simp)) hinv

lemma recLoopF_inv (graph : KGraph) (limit : Nat) (a : Str) :
    ∀ (fuel : Nat) (st : RecState), RecInv graph a st →
      ∀ p ∈ recLoopF graph limit fuel st,
        p.1 ≠ a ∧ mapGet graph p.1 = some p.2 ∧ Reach graph a p.1 := by
  intro fuel
  induction fuel with
  | zero =>
    intro st hinv p hp
    exact hinv.2.2 p hp
  | succ f ih =>
    intro st hinv p hp
    rw [recLoopF] at hp
    cases hq : st.queue with
    | nil =>
      rw [hq] at hp
      exact hinv.2.2 p hp
    | cons q qs =>
      rw [hq] at hp
      dsimp only at hp
      split at hp
      · exact hinv.2.2 p hp
      · have hinv' : RecInv graph a { queue := qs, visited := st.visited, recs := st.recs } := by
          refine ⟨hinv.1, ?_, hinv.2.2⟩
          intro k hk
          exact hinv.2.1 k (by rw [hq]; exact List.mem_cons_of_mem q hk)
        have hqr : Reach graph a q := hinv.2.1 q (by rw [hq]; exact List.mem_cons_self q qs)
        cases hget : mapGet graph q with
        | none =>
          rw [hget] at hp
          exact ih _ hinv' p hp
        | some node =>
          rw [hget] at hp
          refine ih _ ?_ p hp
          exact visitConns_inv graph limit a q node hqr hget node.connections _
            (fun c hc => hc) hinv'

/-- C6: `getRecommendations` returns at most `limit` nodes; every returned
node is stored in the graph under a key different from the start id and
reachable from the start id along connection edges (so never from a
disconnected component); a missing start node or a start node without
connections yields the empty list. -/
theorem recommendations_spec (a : Str) (graph : KGraph) (limit : Nat) :
    (getRecommendations a graph limit).length ≤ limit ∧
    (∀ n ∈ getRecommendations a graph limit,
      ∃ k, k ≠ a ∧ mapGet graph k = some n ∧ Reach graph a k) ∧
    (mapGet graph a = none → getRecommendations a graph limit = []) ∧
    (∀ node, mapGet graph a = some node → node.connections = [] →
      getRecommendations a graph limit = []) := by
  have hempty : ∀ fuel (st : RecState), st.queue = [] →
      recLoopF graph limit fuel st = st.recs := by
    intro fuel st hst
    cases fuel with
    | zero => rfl
    | succ f =>
      rw [recLoopF, hst]
  refine ⟨?_, ?_, ?_, ?_⟩
  · rw [getRecommendations]
    cases mapGet graph a with
    | none => simp
    | some node =>
      dsimp only
      exact (List.length_take_le _ _)
  · intro n hn
    rw [getRecommendations] at hn
    cases hget : mapGet graph a with
    | none => rw [hget] at hn; simp at hn
    | some node =>
      rw [hget] at hn
      dsimp only at hn
      have hn2 := ((List.take_prefix limit _).sublist).subset hn
      obtain ⟨p, hp, hpn⟩ := List.mem_map.mp hn2
      have hinv0 : RecInv graph a
          { queue := [a], visited := [a], recs := [] } := by
        refine ⟨List.mem_singleton_self a, ?_, by simp⟩
        intro k hk
        simp only [List.mem_singleton] at hk
        subst hk
        exact Relation.ReflTransGen.refl
      obtain ⟨h1, h2, h3⟩ := recLoopF_inv graph limit a _ _ hinv0 p hp
      exact ⟨p.1, h1, hpn ▸ h2, h3⟩
  · intro hget
    rw [getRecommendations, hget]
  · intro node hget hconns
    rw [getRecommendations, hget]
    dsimp only
    rw [recLoopF]
    dsimp only
    split
    · simp
    · rw [hget]
      dsimp only
      rw [hconns]
      rw [show visitConns graph limit []
          { queue := [], visited := [a], recs := [] } =
          { queue := [], visited := [a], recs := [] } from rfl]
      rw [hempty _ _ rfl]
      simp

/-- Witness for `recommendations_spec`: node `b` is returned for start `a` and
certified reachable under a non-start key; a missing start id returns `[]`. -/
theorem recommendations_spec_witness :
    recNodeB ∈ getRecommendations (("a").data) recGraphEx 5 ∧
    (∃ k, k ≠ ("a").data ∧ mapGet recGraphEx k = some recNodeB ∧
      Reach recGraphEx (("a").data) k) ∧
    getRecommendations (("z").data) recGraphEx 5 = [] := by
  have hmem : recNodeB ∈ getRecommendations (("a").data) recGraphEx 5 := by decide
  refine ⟨hmem, (recommendations_spec (("a").data) recGraphEx 5).2.1 recNodeB hmem, ?_⟩
  exact (recommendations_spec (("z").data) recGraphEx 5).2.2.1 (by decide)

/-! ### C2: totality of the core functions -/

lemma score_foldlM_safe (contentLower content : Str) :
    ∀ (terms : List Str) (acc : Nat),
      (∀ t ∈ terms, regexTermSafe t = true) →
      ∃ m, terms.foldlM (fun acc term =>
        if strIncludes term contentLower then
          if regexTermSafe term then some (acc + countBMatches term content) else none
        else some acc) acc = some m := by
  intro terms
  induction terms with
  | nil => intro acc _; exact ⟨acc, rfl⟩
  | cons t rest ih =>
    intro acc hsafe
    rw [List.foldlM_cons]
    by_cases hinc : strIncludes t contentLower
    · rw [if_pos hinc, if_pos (hsafe t (by simp))]
      exact ih _ (fun u hu => hsafe u (by simp [hu]))
    · rw [if_neg hinc]
      exact ih _ (fun u hu => hsafe u (by simp [hu]))

/-- C2 (amended): `calculateSimilarityScore` returns a value for every query
whose lowercased whitespace-split terms are free of regex metacharacters (it
can throw otherwise, see the counterexample); and the core functions return
empty collections / zero scores on empty input: no chunks for empty content,
a successful empty ranking of no chunks, zero similarity of empty contents,
and no recommendations over the empty graph. -/
theorem core_total_on_safe_input :
    (∀ query content : Str,
      (∀ t ∈ jsSplitWS (toLowerStr query), regexTermSafe t = true) →
      ∃ s : ℚ, calculateSimilarityScore query content = some s) ∧
    chunkContent [] 1024 128 [] [] = [] ∧
    (∀ (query : Str) (topK : Nat), rankChunksForQuery [] query topK = some []) ∧
    calculateSimilarity [] [] = 0 ∧
    (∀ (a : Str) (limit : Nat), getRecommendations a [] limit = []) := by
  refine ⟨?_, by decide, ?_, by decide, ?_⟩
  · intro query content hsafe
    rw [calculateSimilarityScore]
    obtain ⟨m, hm⟩ := score_foldlM_safe (toLowerStr content) content
      (jsSplitWS (toLowerStr query)) 0 hsafe
    rw [hm]
    exact ⟨_, rfl⟩
  · intro query topK
    simp [rankChunksForQuery, stableSortBy]
    exact ⟨[], rfl, Or.inr rfl⟩
  · intro a limit
    rfl

/-- C2 counterexample: the query `"("` against content `"(a)"` reaches
`new RegExp("\\b(\\b")`, whose unterminated group throws a `SyntaxError`
(modelled as `none`), so `calculateSimilarityScore` is not total on all
strings. -/
theorem similarity_score_metachar_error :
    calculateSimilarityScore (("(").data) (("(a)").data) = none := by decide

/-- Witness for `core_total_on_safe_input`: a plain two-word query scores
without throwing. -/
theorem core_total_on_safe_input_witness :
    ∃ s : ℚ, calculateSimilarityScore (("hello world").data) (("hello there").data) =
      some s :=
  core_total_on_safe_input.1 (("hello world").data) (("hello there").data) (by decide)
